import Mathlib

/-!
Verification of the ESPPRC label-setting solver (`src/implementations/rust/src/espprc.rs`).

Shallow embedding conventions:
* The distance/cost oracle (`tsp::TSPData`) is modelled as a structure of functions;
  `d` (an `i32` in the source) becomes `Int`, `aux` (an `f64`, assumed finite by the
  spec) becomes `Rat`, `usize` becomes `Nat`.
* The shared mutable graph of `Rc<RefCell<Label>>` is modelled as an arena
  (`List Label`): every label ever created is appended to the arena, and
  `predecessor` / `successors` / per-vertex stores hold arena indices.  A label
  rejected by `updatedominance` stays in the arena but is never referenced again,
  which matches the source (the dropped `Rc`).
* The recursive `marksuccessors` is given explicit fuel; solve-level calls use
  fuel `arena.length`, which is sufficient because a successor's arena index is
  always strictly larger than its parent's (labels are created in order).
* The `while !q.is_empty()` driver loop is given explicit fuel; `solve` runs it
  with `fuelBound`, an instance-computable bound proved sufficient below, so
  `solve` has the same signature as the source function.
-/

attribute [local semireducible] Rat.add

/-- The distance/cost oracle (external collaborator `tsp::TSPData`):
vertex count `n`, distances `d`, reduced costs `aux`. -/
structure TSPData where
  n : Nat
  d : Nat → Nat → Int
  aux : Nat → Nat → Rat

/-- `struct Label` (lines 8-17): `at` is the terminal vertex, `visited` the
vertex set of the partial path, `cost`/`length` the accumulated reduced cost
and travel length, `q` the per-resource consumption, `predecessor` and
`successors` arena indices, `ignore` the lazy-deletion flag. -/
structure Label where
  «at» : Nat
  visited : List Bool
  ignore : Bool
  predecessor : Option Nat
  cost : Rat
  length : Int
  q : List Nat
  successors : List Nat
deriving DecidableEq, Repr

/-- Placeholder label used for out-of-range arena reads (never hit on the
in-bounds accesses the source performs). -/
def dummyLabel : Label :=
  { «at» := 0, visited := [], ignore := false, predecessor := none,
    cost := 0, length := 0, q := [], successors := [] }

/-- Read an arena entry (the source dereferences an `Rc`, always in bounds). -/
def getL (arena : List Label) (i : Nat) : Label :=
  arena.getD i dummyLabel

/-- `Label::empty` (lines 20-33): the synthetic initial depot label. -/
def Label.empty (d : TSPData) (nresources : Nat) : Label :=
  { «at» := 0, visited := List.replicate d.n false, ignore := false,
    predecessor := none, cost := 0, length := 0,
    q := List.replicate nresources 0, successors := [] }

/-- `Label::dominates` (lines 35-50).  Rust's `v1 > v2` on `bool` is
`v1 && !v2`; the `zip` iterators stop at the shorter vector, exactly as the
source's `zip` does. -/
def Label.dominates (self other : Label) : Bool :=
  if self.cost > other.cost || self.length > other.length then false
  else if (self.visited.zip other.visited).any (fun p => p.1 && !p.2) then false
  else if (self.q.zip other.q).any (fun p => decide (p.1 > p.2)) then false
  else true

/-- The resource update loop of `Label::extend` (lines 57-61):
`for i in 0..q.len() { if (vertex & (1 << i)) > 0 { q[i] += 1 } }`,
written as a structural recursion carrying the bit index. -/
def bumpQ (vertex : Nat) : Nat → List Nat → List Nat
  | _, [] => []
  | i, x :: xs => (if vertex &&& (1 <<< i) > 0 then x + 1 else x) :: bumpQ vertex (i + 1) xs

/-- `Label::extend` (lines 53-74): extend the label at arena index `fromIdx`
(whose value is `from_`) to `vertex`. -/
def Label.extend (d : TSPData) (from_ : Label) (fromIdx : Nat) (vertex : Nat) : Label :=
  { «at» := vertex,
    visited := from_.visited.set vertex true,
    ignore := false,
    predecessor := some fromIdx,
    cost := from_.cost + d.aux from_.«at» vertex,
    length := from_.length + d.d from_.«at» vertex,
    q := bumpQ vertex 0 from_.q,
    successors := [] }

/-- `Label::marksuccessors` (lines 80-86) with explicit recursion-depth fuel:
for each root index, set its `ignore` flag and recurse into its successors.
The source's recursion terminates because successor indices strictly increase;
depth fuel `arena.length` therefore suffices (proved below). -/
def marksuccessorsAux : Nat → List Label → List Nat → List Label
  | 0, arena, _ => arena
  | fuel + 1, arena, roots =>
      roots.foldl
        (fun a i =>
          let a1 := a.set i { getL a i with ignore := true }
          marksuccessorsAux fuel a1 (getL a1 i).successors)
        arena

/-- `self.marksuccessors()` for the label at arena index `i`. -/
def Label.marksuccessors (arena : List Label) (i : Nat) : List Label :=
  marksuccessorsAux arena.length arena (getL arena i).successors

/-- Swap-with-last-and-pop removal (lines 96-99): `let last = labels.pop();
if i < labels.len() { labels[i] = last.unwrap() }`. -/
def swapRemove (store : List Nat) (i : Nat) : List Nat :=
  let store1 := store.dropLast
  if i < store1.length then store1.set i (store.getLast?.getD 0) else store1

/-- The scan loop of `Label::updatedominance` (lines 88-107).  `store` is the
per-vertex `Vec<LabelRef>` as arena indices, `newIdx` the new label's arena
index, `i` the loop counter. -/
def updatedominanceAux : Nat → List Label → Nat → List Nat → Nat →
    Bool × List Nat × List Label
  | 0, arena, _, store, _ => (false, store, arena)
  | fuel + 1, arena, newIdx, store, i =>
      if i < store.length then
        let li := store.getD i 0
        if (getL arena li).dominates (getL arena newIdx) then
          (false, store, arena)
        else if (getL arena newIdx).dominates (getL arena li) then
          let arena' := Label.marksuccessors arena li
          updatedominanceAux fuel arena' newIdx (swapRemove store i) i
        else
          updatedominanceAux fuel arena newIdx store (i + 1)
      else
        (true, store ++ [newIdx], arena)

/-- `Label::updatedominance` (lines 88-107): returns (added?, new store, new arena).
The scan loop runs at most `store.length + 1` times (each step removes an
element or advances `i`), so the structural fuel below never runs out. -/
def Label.updatedominance (arena : List Label) (store : List Nat) (newIdx : Nat) :
    Bool × List Nat × List Label :=
  updatedominanceAux (store.length + 1) arena newIdx store 0

/-- The length-feasibility test of the driver (line 135): the extension of
`lind` (at vertex `n`) to `succ` passes iff
`lind.length + d(n, succ) + d(succ, 0) <= maxlen`. -/
def lengthOk (d : TSPData) (maxlen : Int) (n succ : Nat) (lind : Label) : Bool :=
  !(lind.length + d.d n succ + d.d succ 0 > maxlen)

/-- The resource-feasibility test of the driver (lines 139-145):
`rfeas` is false iff some resource bit of `succ` would push `q[r]` above
`resourcecapacity`. -/
def rfeas (nresources resourcecapacity : Nat) (succ : Nat) (lind : Label) : Bool :=
  (List.range nresources).all
    (fun r => !(succ &&& (1 <<< r) > 0 && lind.q.getD r 0 + 1 > resourcecapacity))

/-- The driver's mutable state: the label arena, the per-vertex stores
(`labels`), the FIFO vertex queue (`q`) and the membership flags (`in_q`). -/
structure SolveState where
  arena : List Label
  stores : List (List Nat)
  queue : List Nat
  in_q : List Bool
deriving DecidableEq, Repr

/-- Lines 112-120: initial state — the synthetic depot label seeded directly
into the depot's store, depot enqueued. -/
def initState (d : TSPData) (nresources : Nat) : SolveState :=
  { arena := [Label.empty d nresources],
    stores := (List.replicate d.n []).set 0 [0],
    queue := [0],
    in_q := (List.replicate d.n false).set 0 true }

/-- One candidate successor `succ` for the label at arena index `li`
(dequeued vertex `n`): lines 130-158.  Skips on visited/self, on length
infeasibility, on resource infeasibility; otherwise extends, offers the new
label to `succ`'s store, and on acceptance records it as a successor of the
parent and enqueues `succ` (unless already queued or the depot). -/
def extendStep (d : TSPData) (nresources resourcecapacity : Nat) (maxlen : Int)
    (n li succ : Nat) (st : SolveState) : SolveState :=
  let lind := getL st.arena li
  if lind.visited.getD succ false || succ == n then st
  else if !lengthOk d maxlen n succ lind then st
  else if !rfeas nresources resourcecapacity succ lind then st
  else
    let nl := Label.extend d lind li succ
    let newIdx := st.arena.length
    let arena1 := st.arena ++ [nl]
    let r := Label.updatedominance arena1 (st.stores.getD succ []) newIdx
    let added := r.1
    let arena2 := r.2.2
    let stores2 := st.stores.set succ r.2.1
    if added then
      let arena3 := arena2.set li { getL arena2 li with successors := (getL arena2 li).successors ++ [newIdx] }
      if !(st.in_q.getD succ false) && succ != 0 then
        { arena := arena3, stores := stores2, queue := st.queue ++ [succ],
          in_q := st.in_q.set succ true }
      else
        { arena := arena3, stores := stores2, queue := st.queue, in_q := st.in_q }
    else
      { arena := arena2, stores := stores2, queue := st.queue, in_q := st.in_q }

/-- Process one label of the dequeued vertex `n` (lines 126-160): skip if
`ignore` is set (checked once, as in the source), else try every successor
vertex and finally mark the label `ignore`. -/
def processLabel (d : TSPData) (nresources resourcecapacity : Nat) (maxlen : Int)
    (n li : Nat) (st : SolveState) : SolveState :=
  if (getL st.arena li).ignore then st
  else
    let st1 := (List.range d.n).foldl
      (fun s succ => extendStep d nresources resourcecapacity maxlen n li succ s) st
    { st1 with arena := st1.arena.set li { getL st1.arena li with ignore := true } }

/-- Process the dequeued vertex `n` (lines 125-161).  The source iterates
`labels[n]` by index; since every `updatedominance` call targets `labels[succ]`
with `succ != n`, the store of `n` is not mutated during the pass, so iterating
over the snapshot taken at dequeue time is the source's behaviour. -/
def processVertex (d : TSPData) (nresources resourcecapacity : Nat) (maxlen : Int)
    (n : Nat) (st : SolveState) : SolveState :=
  (st.stores.getD n []).foldl
    (fun s li => processLabel d nresources resourcecapacity maxlen n li s) st

/-- The main DP loop (lines 122-162) with explicit fuel: dequeue a vertex,
clear its membership flag, process its labels. -/
def mainLoop (d : TSPData) (nresources resourcecapacity : Nat) (maxlen : Int) :
    Nat → SolveState → SolveState
  | 0, st => st
  | fuel + 1, st =>
      match st.queue with
      | [] => st
      | n :: rest =>
          mainLoop d nresources resourcecapacity maxlen fuel
            (processVertex d nresources resourcecapacity maxlen n
              { st with queue := rest, in_q := st.in_q.set n false })

/-- Result extraction (lines 163-170): minimum cost over the depot's store.
The source indexes `labels[0][0]` unconditionally (degenerate only when
`n == 0`, which the spec rules out); the empty-store branch returns 0. -/
def bestcost (st : SolveState) : Rat :=
  match st.stores.getD 0 [] with
  | [] => 0
  | i :: rest =>
      rest.foldl
        (fun b j => if (getL st.arena j).cost < b then (getL st.arena j).cost else b)
        (getL st.arena i).cost

/-- Fuel provably sufficient for the main loop (see the termination theorem):
strictly more than `(n+1)^(n+1) + 1`, an upper bound on the lexicographic
measure of the initial state. -/
def fuelBound (d : TSPData) : Nat :=
  (d.n + 1) ^ (d.n + 1) + 2

/-- `solve` (lines 110-171): same signature as the source; the internal fuel
is an upper bound on the number of loop iterations, so the loop always drains
its queue before the fuel runs out. -/
def solve (d : TSPData) (nresources resourcecapacity : Nat) (maxlen : Int) : Rat :=
  bestcost (mainLoop d nresources resourcecapacity maxlen (fuelBound d)
    (initState d nresources))

/-- Scenario A oracle from the spec: two vertices, depot 0 and customer 1,
`d(0,1) = d(1,0) = 5`, `d(0,0) = 0`, `aux(0,1) = -3`, all other `aux` 0. -/
def scenA : TSPData :=
  { n := 2,
    d := fun i j => if i == 0 && j == 1 then 5 else if i == 1 && j == 0 then 5 else 0,
    aux := fun i j => if i == 0 && j == 1 then -3 else 0 }

/-- Concrete label used by witnesses: cost 1, visited `[true, false]`. -/
def wA : Label :=
  { «at» := 0, visited := [true, false], ignore := false, predecessor := none,
    cost := 1, length := 0, q := [], successors := [] }

/-- Concrete label used by witnesses: cost 0, visited `[false, true]`. -/
def wB : Label :=
  { «at» := 0, visited := [false, true], ignore := false, predecessor := none,
    cost := 0, length := 0, q := [], successors := [] }

/-- Concrete label with a shorter visited vector: cost 0, visited `[true]`. -/
def wN : Label :=
  { «at» := 0, visited := [true], ignore := false, predecessor := none,
    cost := 0, length := 0, q := [], successors := [] }

/-- Concrete label with resource consumption `[2]`, used by the C7 witness. -/
def wQ : Label :=
  { wN with q := [2] }

/-- Arena for the C5 counterexample: store `[0, 1]` is an antichain, label 2 is
the incoming label; its shorter visited vector makes dominance non-transitive
across the three labels. -/
def arenaC5 : List Label := [wA, wB, wN]

/-- Arena exercising the successor cascade: `0 → 1 → 2` and `0 → 3`. -/
def arenaC6 : List Label :=
  [{ wA with successors := [1, 3] },
   { wB with successors := [2] },
   wN,
   { wN with cost := 7 }]

/-- A sequence of `updatedominance` calls against one store: each new label is
appended to the arena (it is created by `extend`) and then offered to the
store.  Used to state the store-antichain claim. -/
def insertSeq : List Label → List Nat → List Label → List Nat × List Label
  | arena, store, [] => (store, arena)
  | arena, store, l :: ls =>
      let arena1 := arena ++ [l]
      let r := Label.updatedominance arena1 store (arena1.length - 1)
      insertSeq r.2.2 r.2.1 ls

/-! ## Helper lemmas about `Label.dominates` -/

/-- The only mutation `marksuccessors` performs on an entry: leave it alone or
set its `ignore` flag. -/
def ignOnly (x y : Label) : Prop :=
  x = y ∨ x = { y with ignore := true }

/-- Arena evolution that only sets `ignore` flags. -/
def ignOnlyArena (a' a : List Label) : Prop :=
  a'.length = a.length ∧ ∀ j, ignOnly (getL a' j) (getL a j)

/-- Neither of two stored labels dominates the other. -/
def nondom (arena : List Label) (i j : Nat) : Prop :=
  (getL arena i).dominates (getL arena j) = false ∧
  (getL arena j).dominates (getL arena i) = false

/-- The store-antichain property: no two labels of the store (at distinct
positions) dominate each other. -/
def StoreAntichain (arena : List Label) (store : List Nat) : Prop :=
  store.Pairwise (nondom arena)

/-- `SuccReach a i j`: label `j` is reachable from label `i` by one or more
successor links in arena `a`. -/
inductive SuccReach (a : List Label) (i : Nat) : Nat → Prop
  | step (j : Nat) : j ∈ (getL a i).successors → SuccReach a i j
  | trans (k j : Nat) : SuccReach a i k → j ∈ (getL a k).successors → SuccReach a i j

/-- Equality of all label fields the search logic reads across mutations:
everything except `ignore` and `successors` (those two are the only mutable
bookkeeping of the source). -/
def coreEq (x y : Label) : Prop :=
  x.«at» = y.«at» ∧ x.visited = y.visited ∧ x.cost = y.cost ∧
  x.length = y.length ∧ x.q = y.q

/-- The arena grows and existing entries keep their core fields. -/
def arenaExt (a' a : List Label) : Prop :=
  a.length ≤ a'.length ∧ ∀ j, j < a.length → coreEq (getL a' j) (getL a j)

/-- The global invariant of the driver state (the queue plays no role here):
label dimensions are uniform, the arena is nonempty with the initial label's
core at index 0, the depot store always holds index 0, store indices are
in-bounds and point at labels of their own vertex, `visited[0]` is set exactly
on the labels that closed a route at the depot, and every store is an
antichain. -/
structure DriverInv (d : TSPData) (nres : Nat) (arena : List Label)
    (stores : List (List Nat)) : Prop where
  lens : ∀ i, i < arena.length →
    (getL arena i).visited.length = d.n ∧ (getL arena i).q.length = nres
  ne : arena ≠ []
  init0 : coreEq (getL arena 0) (Label.empty d nres)
  store0 : 0 ∈ stores.getD 0 []
  slen : stores.length = d.n
  sbound : ∀ v j, j ∈ stores.getD v [] → j < arena.length
  atv : ∀ v j, j ∈ stores.getD v [] → (getL arena j).«at» = v
  vis0 : ∀ i, i < arena.length → (getL arena i).«at» ≠ 0 →
    (getL arena i).visited.getD 0 false = false
  at0 : ∀ i, i < arena.length → i ≠ 0 → (getL arena i).«at» = 0 →
    (getL arena i).visited.getD 0 false = true
  anti : ∀ v, StoreAntichain arena (stores.getD v [])

/-- The final driver state that `solve` reduces to its answer. -/
def finalState (d : TSPData) (nresources resourcecapacity : Nat) (maxlen : Int) :
    SolveState :=
  mainLoop d nresources resourcecapacity maxlen (fuelBound d) (initState d nresources)

/-- The loop-level invariant: the driver invariant plus the fact that the
depot can only be in the queue in the very first iteration (the enqueue
condition `succ != 0` never re-adds it). -/
def LoopInv (d : TSPData) (nres : Nat) (st : SolveState) : Prop :=
  DriverInv d nres st.arena st.stores ∧ (0 ∈ st.queue → st = initState d nres)

/-- Weight of a label for the termination measure: dead labels weigh nothing,
a live label weighs more the fewer vertices it has visited. -/
def wt (n : Nat) (l : Label) : Nat :=
  if l.ignore then 0 else (n + 1) ^ (n - l.visited.count true)

/-- Total weight of the arena. -/
def Phi (n : Nat) (arena : List Label) : Nat :=
  (arena.map (wt n)).sum

/-- Total weight with the entry at `li` zeroed out (treated as dead). -/
def Phiex (n li : Nat) (arena : List Label) : Nat :=
  Phi n (arena.set li { getL arena li with ignore := true })

/-- The driver measure: arena weight, lexicographically refined by queue
length. -/
def Mes (d : TSPData) (st : SolveState) : Nat :=
  Phi d.n st.arena * (d.n + 1) + st.queue.length

/-- Unfold `Label.dominates` into its three checks. -/
theorem dominates_eq_true_iff (A B : Label) :
    A.dominates B = true ↔
      A.cost ≤ B.cost ∧ A.length ≤ B.length ∧
      ((A.visited.zip B.visited).any fun p => p.1 && !p.2) = false ∧
      ((A.q.zip B.q).any fun p => decide (p.1 > p.2)) = false := by
  unfold Label.dominates
  split_ifs with h1 h2 h3
  · simp only [Bool.false_eq_true, false_iff]
    rcases Bool.or_eq_true_iff.mp h1 with h | h
    · intro hc; exact absurd (of_decide_eq_true h) (not_lt.mpr hc.1)
    · intro hc; exact absurd (of_decide_eq_true h) (not_lt.mpr hc.2.1)
  · simp only [Bool.false_eq_true, false_iff]
    intro hc; exact absurd h2 (by rw [hc.2.2.1]; simp)
  · simp only [Bool.false_eq_true, false_iff]
    intro hc; exact absurd h3 (by rw [hc.2.2.2]; simp)
  · simp only [true_iff]
    refine ⟨?_, ?_, by simpa using h2, by simpa using h3⟩
    · by_contra hc
      exact h1 (by simp [decide_eq_true_eq, lt_of_not_le hc])
    · by_contra hc
      exact h1 (by simp [decide_eq_true_eq, lt_of_not_le hc])

/-- Pointwise reading of a `zip`-`any` being false, for equal-length lists. -/
theorem zip_any_false_iff {α β : Type} (da : α) (db : β) (p : α × β → Bool) :
    ∀ (as : List α) (bs : List β), as.length = bs.length →
      (((as.zip bs).any p) = false ↔
        ∀ i, i < as.length → p (as.getD i da, bs.getD i db) = false) := by
  intro as
  induction as with
  | nil => intro bs _; simp
  | cons a as ih =>
    intro bs h
    cases bs with
    | nil => simp at h
    | cons b bs =>
      simp only [List.zip_cons_cons, List.any_cons, Bool.or_eq_false_iff]
      rw [ih bs (by simpa using h)]
      constructor
      · rintro ⟨hp, hrest⟩ i hi
        cases i with
        | zero => simpa using hp
        | succ j => simpa using hrest j (by simpa using hi)
      · intro hall
        refine ⟨by simpa using hall 0 (by simp), fun j hj => ?_⟩
        simpa using hall (j + 1) (by simpa using hj)

/-! ## Claims C2, C3, C7 -/

/-- Claim C2: on the two-vertex Scenario A instance (depot 0, customer 1 whose
id sets resource bit 0, `d(0,1)=d(1,0)=5`, `d(0,0)=0`, `aux(0,1)=-3`,
`aux(1,0)=0`, one resource of capacity 1, `maxlen = 100`), `solve` returns
exactly `-3`. -/
theorem claim2_scenarioA : solve scenA 1 1 100 = -3 := by decide

/-- Componentwise characterization of `dominates` for equal-length labels. -/
theorem dominates_char (A B : Label)
    (hv : A.visited.length = B.visited.length) (hq : A.q.length = B.q.length) :
    A.dominates B = true ↔
      A.cost ≤ B.cost ∧ A.length ≤ B.length ∧
      (∀ v, v < A.visited.length →
        (A.visited.getD v false = true → B.visited.getD v false = true)) ∧
      (∀ r, r < A.q.length → A.q.getD r 0 ≤ B.q.getD r 0) := by
  rw [dominates_eq_true_iff,
    zip_any_false_iff false false _ A.visited B.visited hv,
    zip_any_false_iff 0 0 _ A.q B.q hq]
  refine and_congr Iff.rfl (and_congr Iff.rfl (and_congr ?_ ?_))
  · refine forall_congr' fun v => imp_congr Iff.rfl ?_
    cases A.visited.getD v false <;> cases B.visited.getD v false <;> simp
  · refine forall_congr' fun r => imp_congr Iff.rfl ?_
    simp [not_lt]

/-- `dominates` is transitive across labels of equal dimensions. -/
theorem dominates_trans {A B C : Label}
    (hvAB : A.visited.length = B.visited.length)
    (hvBC : B.visited.length = C.visited.length)
    (hqAB : A.q.length = B.q.length) (hqBC : B.q.length = C.q.length)
    (h1 : A.dominates B = true) (h2 : B.dominates C = true) :
    A.dominates C = true := by
  rw [dominates_char A B hvAB hqAB] at h1
  rw [dominates_char B C hvBC hqBC] at h2
  rw [dominates_char A C (hvAB.trans hvBC) (hqAB.trans hqBC)]
  obtain ⟨hc1, hl1, hv1, hq1⟩ := h1
  obtain ⟨hc2, hl2, hv2, hq2⟩ := h2
  refine ⟨hc1.trans hc2, hl1.trans hl2, ?_, ?_⟩
  · intro v hv hval
    exact hv2 v (hvAB ▸ hv) (hv1 v hv hval)
  · intro r hr
    exact (hq1 r hr).trans (hq2 r (hqAB ▸ hr))

/-- Claim C3: for labels with equal-length `visited` vectors and equal-length
`q` vectors (costs are rationals, hence finite), `dominates` returns true iff
cost, length, every visited component and every resource component are
componentwise no worse.  The embedding of `dominates` is a pure function, so
the call has no side effects. -/
theorem claim3_dominates_characterization (A B : Label)
    (hv : A.visited.length = B.visited.length) (hq : A.q.length = B.q.length) :
    A.dominates B = true ↔
      A.cost ≤ B.cost ∧ A.length ≤ B.length ∧
      (∀ v, v < A.visited.length →
        (A.visited.getD v false = true → B.visited.getD v false = true)) ∧
      (∀ r, r < A.q.length → A.q.getD r 0 ≤ B.q.getD r 0) :=
  dominates_char A B hv hq

/-- Witness for C3 at concrete labels. -/
theorem claim3_witness :
    wA.visited.length = wB.visited.length ∧ wA.q.length = wB.q.length ∧
      (wA.dominates wB = true ↔
        wA.cost ≤ wB.cost ∧ wA.length ≤ wB.length ∧
        (∀ v, v < wA.visited.length →
          (wA.visited.getD v false = true → wB.visited.getD v false = true)) ∧
        (∀ r, r < wA.q.length → wA.q.getD r 0 ≤ wB.q.getD r 0)) :=
  ⟨by decide, by decide, claim3_dominates_characterization wA wB (by decide) (by decide)⟩

/-- Claim C7: the driver's two feasibility tests are monotone in their bounds —
a resource rejection at capacity `c` persists at any smaller capacity, and a
length acceptance at bound `m` persists at any larger bound. -/
theorem claim7_feasibility_monotone (d : TSPData) (nresources n succ : Nat) (l : Label)
    (c c' : Nat) (m m' : Int) :
    (c' < c → rfeas nresources c succ l = false → rfeas nresources c' succ l = false) ∧
    (m < m' → lengthOk d m n succ l = true → lengthOk d m' n succ l = true) := by
  constructor
  · intro hlt hf
    unfold rfeas at hf ⊢
    rcases List.all_eq_false.mp hf with ⟨r, hr, hrp⟩
    refine List.all_eq_false.mpr ⟨r, hr, ?_⟩
    simp at hrp ⊢
    exact ⟨hrp.1, by omega⟩
  · intro hlt hok
    unfold lengthOk at hok ⊢
    simp at hok ⊢
    omega

/-- Witness for C7 at a concrete label and concrete bounds. -/
theorem claim7_witness :
    ((1 : Nat) < 2 → rfeas 1 2 1 wQ = false → rfeas 1 1 1 wQ = false) ∧
    ((5 : Int) < 6 → lengthOk scenA 5 0 1 wQ = true → lengthOk scenA 6 0 1 wQ = true) :=
  claim7_feasibility_monotone scenA 1 0 1 wQ 2 1 5 6

/-! ## Arena access lemmas -/

theorem getL_set (a : List Label) (i j : Nat) (x : Label) :
    getL (a.set i x) j = if i = j ∧ j < a.length then x else getL a j := by
  unfold getL
  rw [List.getD_eq_getElem?_getD, List.getD_eq_getElem?_getD, List.getElem?_set]
  by_cases hij : i = j
  · subst hij
    by_cases hi : i < a.length
    · simp [hi]
    · simp [hi, List.getElem?_eq_none (le_of_not_lt hi)]
  · simp [hij]

theorem getL_append_left (a b : List Label) (j : Nat) (h : j < a.length) :
    getL (a ++ b) j = getL a j :=
  List.getD_append a b dummyLabel j h

theorem getL_append_new (a : List Label) (x : Label) :
    getL (a ++ [x]) a.length = x := by
  unfold getL
  rw [List.getD_eq_getElem?_getD, List.getElem?_concat_length]
  rfl

/-! ## `ignore`-only arena evolution -/

theorem ignOnly_refl (x : Label) : ignOnly x x := Or.inl rfl

theorem ignOnly_trans {x y z : Label} (h1 : ignOnly x y) (h2 : ignOnly y z) :
    ignOnly x z := by
  rcases h1 with h1 | h1 <;> rcases h2 with h2 | h2 <;> subst h1 <;> rw [h2]
  · exact Or.inl rfl
  · exact Or.inr rfl
  · exact Or.inr rfl
  · exact Or.inr rfl

theorem ignOnly_fields {x y : Label} (h : ignOnly x y) :
    x.«at» = y.«at» ∧ x.visited = y.visited ∧ x.cost = y.cost ∧
    x.length = y.length ∧ x.q = y.q ∧ x.predecessor = y.predecessor ∧
    x.successors = y.successors := by
  rcases h with h | h <;> subst h <;> exact ⟨rfl, rfl, rfl, rfl, rfl, rfl, rfl⟩

/-- `dominates` never reads the `ignore` flag. -/
theorem dominates_congr {x x' y y' : Label} (hx : ignOnly x' x) (hy : ignOnly y' y) :
    x'.dominates y' = x.dominates y := by
  obtain ⟨_, hv, hc, hl, hq, _, _⟩ := ignOnly_fields hx
  obtain ⟨_, hv', hc', hl', hq', _, _⟩ := ignOnly_fields hy
  unfold Label.dominates
  rw [hv, hc, hl, hq, hv', hc', hl', hq']

theorem ignOnlyArena_refl (a : List Label) : ignOnlyArena a a :=
  ⟨rfl, fun j => ignOnly_refl (getL a j)⟩

theorem ignOnlyArena_trans {a b c : List Label} (h1 : ignOnlyArena a b)
    (h2 : ignOnlyArena b c) : ignOnlyArena a c :=
  ⟨h1.1.trans h2.1, fun j => ignOnly_trans (h1.2 j) (h2.2 j)⟩

theorem ignOnlyArena_setIgnore (a : List Label) (i : Nat) :
    ignOnlyArena (a.set i { getL a i with ignore := true }) a := by
  refine ⟨List.length_set a i _, fun j => ?_⟩
  rw [getL_set]
  by_cases h : i = j ∧ j < a.length
  · rw [if_pos h, h.1]
    exact Or.inr rfl
  · rw [if_neg h]
    exact ignOnly_refl _

/-! ## `marksuccessors` lemmas -/

theorem mark_zero (a : List Label) (r : List Nat) : marksuccessorsAux 0 a r = a := rfl

theorem mark_nil (f : Nat) (a : List Label) : marksuccessorsAux (f + 1) a [] = a := rfl

theorem mark_cons (f : Nat) (a : List Label) (i : Nat) (rest : List Nat) :
    marksuccessorsAux (f + 1) a (i :: rest) =
      marksuccessorsAux (f + 1)
        (marksuccessorsAux f (a.set i { getL a i with ignore := true })
          (getL (a.set i { getL a i with ignore := true }) i).successors) rest := rfl

/-- `marksuccessorsAux` only sets `ignore` flags. -/
theorem mark_ignOnlyArena : ∀ (f : Nat) (r : List Nat) (a : List Label),
    ignOnlyArena (marksuccessorsAux f a r) a := by
  intro f
  induction f with
  | zero => intro r a; rw [mark_zero]; exact ignOnlyArena_refl a
  | succ f ihf =>
    intro r
    induction r with
    | nil => intro a; rw [mark_nil]; exact ignOnlyArena_refl a
    | cons i rest ihr =>
      intro a
      rw [mark_cons]
      exact ignOnlyArena_trans (ihr _)
        (ignOnlyArena_trans (ihf _ _) (ignOnlyArena_setIgnore a i))

theorem marksuccessors_ignOnlyArena (arena : List Label) (i : Nat) :
    ignOnlyArena (Label.marksuccessors arena i) arena :=
  mark_ignOnlyArena arena.length _ arena

/-! ## `swapRemove` lemmas -/

theorem swapRemove_length (store : List Nat) (i : Nat) :
    (swapRemove store i).length = store.length - 1 := by
  simp only [swapRemove]
  by_cases hc : i < store.dropLast.length
  · rw [if_pos hc, List.length_set, List.length_dropLast]
  · rw [if_neg hc, List.length_dropLast]

theorem swapRemove_getElem? (store : List Nat) (i p : Nat) (hi : i < store.length) :
    (swapRemove store i)[p]? =
      if p < store.length - 1 then
        (if i = p then store[store.length - 1]? else store[p]?)
      else none := by
  have hlast : store.getLast? = store[store.length - 1]? := List.getLast?_eq_getElem? store
  have hlen1 : store.length - 1 < store.length := by omega
  obtain ⟨v, hv⟩ : ∃ v, store[store.length - 1]? = some v :=
    ⟨store[store.length - 1], List.getElem?_eq_getElem hlen1⟩
  simp only [swapRemove]
  by_cases hc : i < store.dropLast.length
  · rw [if_pos hc, List.getElem?_set]
    rw [List.length_dropLast] at hc
    by_cases hip : i = p
    · subst hip
      rw [if_pos rfl, if_pos (by rw [List.length_dropLast]; exact hc), if_pos hc, if_pos rfl]
      rw [hlast, hv]
      simp
    · rw [if_neg hip, List.getElem?_dropLast]
      by_cases hp : p < store.length - 1
      · rw [if_pos hp, if_pos hp, if_neg hip]
      · rw [if_neg hp, if_neg hp]
  · rw [if_neg hc, List.getElem?_dropLast]
    rw [List.length_dropLast] at hc
    have hieq : i = store.length - 1 := by omega
    by_cases hp : p < store.length - 1
    · rw [if_pos hp, if_pos hp, if_neg (by omega)]
    · rw [if_neg hp, if_neg hp]

theorem swapRemove_subset (store : List Nat) (i : Nat) (hi : i < store.length) :
    ∀ x ∈ swapRemove store i, x ∈ store := by
  intro x hx
  rcases List.mem_iff_getElem?.mp hx with ⟨p, hp⟩
  rw [swapRemove_getElem? store i p hi] at hp
  by_cases h1 : p < store.length - 1
  · rw [if_pos h1] at hp
    by_cases h2 : i = p
    · rw [if_pos h2] at hp
      exact List.mem_iff_getElem?.mpr ⟨store.length - 1, hp⟩
    · rw [if_neg h2] at hp
      exact List.mem_iff_getElem?.mpr ⟨p, hp⟩
  · rw [if_neg h1] at hp
    exact absurd hp (by simp)

theorem mem_swapRemove_of_ne (store : List Nat) (i : Nat) (hi : i < store.length)
    (x : Nat) (hx : x ∈ store) (hne : x ≠ store.getD i 0) :
    x ∈ swapRemove store i := by
  rcases List.mem_iff_getElem?.mp hx with ⟨p, hp⟩
  have hplen : p < store.length := by
    by_contra hple
    rw [List.getElem?_eq_none (le_of_not_lt hple)] at hp
    exact absurd hp (by simp)
  have hpi : p ≠ i := by
    intro he
    subst he
    rw [List.getD_eq_getElem?_getD, hp] at hne
    exact hne rfl
  by_cases hp1 : p < store.length - 1
  · refine List.mem_iff_getElem?.mpr ⟨p, ?_⟩
    rw [swapRemove_getElem? store i p hi, if_pos hp1, if_neg (fun h => hpi h.symm)]
    exact hp
  · have hpeq : p = store.length - 1 := by omega
    have hilt : i < store.length - 1 := by omega
    refine List.mem_iff_getElem?.mpr ⟨i, ?_⟩
    rw [swapRemove_getElem? store i i hi, if_pos hilt, if_pos rfl, ← hpeq]
    exact hp

theorem swapRemove_pairwise {R : Nat → Nat → Prop} (hsymm : ∀ a b, R a b → R b a)
    (store : List Nat) (i : Nat) (hi : i < store.length) (hP : store.Pairwise R) :
    (swapRemove store i).Pairwise R := by
  rw [List.pairwise_iff_getElem] at hP ⊢
  intro p q hp hq hpq
  have hp1 : p < store.length - 1 := by
    have h := hp; rw [swapRemove_length] at h; exact h
  have hq1 : q < store.length - 1 := by
    have h := hq; rw [swapRemove_length] at h; exact h
  have hval : ∀ r (hr : r < store.length - 1) (hr2 : r < (swapRemove store i).length),
      (swapRemove store i).get ⟨r, hr2⟩ =
        if i = r then store.get ⟨store.length - 1, by omega⟩
        else store.get ⟨r, by omega⟩ := by
    intro r hr hr2
    have h1 : (swapRemove store i)[r]? = some ((swapRemove store i).get ⟨r, hr2⟩) :=
      List.getElem?_eq_getElem hr2
    rw [swapRemove_getElem? store i r hi, if_pos hr] at h1
    by_cases hir : i = r
    · rw [if_pos hir] at h1
      rw [if_pos hir]
      rw [List.getElem?_eq_getElem (by omega : store.length - 1 < store.length)] at h1
      exact (Option.some_injective _ h1).symm
    · rw [if_neg hir] at h1
      rw [if_neg hir]
      rw [List.getElem?_eq_getElem (by omega : r < store.length)] at h1
      exact (Option.some_injective _ h1).symm
  have hgp := hval p hp1 hp
  have hgq := hval q hq1 hq
  simp only [List.get_eq_getElem] at hgp hgq
  rw [hgp, hgq]
  by_cases hip : i = p
  · rw [if_pos hip, if_neg (by omega : ¬ i = q)]
    exact hsymm _ _ (hP q (store.length - 1) (by omega) (by omega) (by omega))
  · rw [if_neg hip]
    by_cases hiq : i = q
    · rw [if_pos hiq]
      exact hP p (store.length - 1) (by omega) (by omega) (by omega)
    · rw [if_neg hiq]
      exact hP p q (by omega) (by omega) hpq

theorem mem_take_swapRemove (store : List Nat) (i : Nat) (hi : i < store.length) :
    ∀ x ∈ (swapRemove store i).take i, x ∈ store.take i := by
  intro x hx
  rcases List.mem_take_iff_getElem.mp hx with ⟨p, hp, hval⟩
  rw [swapRemove_length] at hp
  have hpi : p < i := lt_of_lt_of_le hp (min_le_left _ _)
  have hp1 : p < store.length - 1 := by
    have := lt_of_lt_of_le hp (min_le_right _ _)
    omega
  have h1 : (swapRemove store i)[p]? = some x := by
    rw [← hval]
    exact List.getElem?_eq_getElem _
  rw [swapRemove_getElem? store i p hi, if_pos hp1, if_neg (by omega : ¬ i = p)] at h1
  rw [List.getElem?_eq_getElem (by omega : p < store.length)] at h1
  refine List.mem_take_iff_getElem.mpr ⟨p, by omega, ?_⟩
  exact Option.some_injective _ h1

/-! ## Dominance antichain machinery -/

theorem nondom_symm (arena : List Label) (a b : Nat) (h : nondom arena a b) :
    nondom arena b a :=
  ⟨h.2, h.1⟩

theorem dominates_getL_congr {a' a : List Label} (h : ignOnlyArena a' a) (i j : Nat) :
    (getL a' i).dominates (getL a' j) = (getL a i).dominates (getL a j) :=
  dominates_congr (h.2 i) (h.2 j)

theorem nondom_congr {a' a : List Label} (h : ignOnlyArena a' a) (i j : Nat) :
    nondom a' i j ↔ nondom a i j := by
  unfold nondom
  rw [dominates_getL_congr h, dominates_getL_congr h]

theorem storeAntichain_congr {a' a : List Label} (h : ignOnlyArena a' a)
    (store : List Nat) : StoreAntichain a' store ↔ StoreAntichain a store := by
  constructor
  · intro hp
    exact hp.imp (fun hx => (nondom_congr h _ _).mp hx)
  · intro hp
    exact hp.imp (fun hx => (nondom_congr h _ _).mpr hx)

/-! ## One-step equations for the `updatedominance` scan -/

theorem ud_step_exit (fuel : Nat) (arena : List Label) (newIdx : Nat)
    (store : List Nat) (i : Nat) (h : ¬ i < store.length) :
    updatedominanceAux (fuel + 1) arena newIdx store i = (true, store ++ [newIdx], arena) := by
  simp only [updatedominanceAux]
  rw [if_neg h]

theorem ud_step_reject (fuel : Nat) (arena : List Label) (newIdx : Nat)
    (store : List Nat) (i : Nat) (h : i < store.length)
    (hd : (getL arena (store.getD i 0)).dominates (getL arena newIdx) = true) :
    updatedominanceAux (fuel + 1) arena newIdx store i = (false, store, arena) := by
  simp only [updatedominanceAux]
  rw [if_pos h, if_pos hd]

theorem ud_step_remove (fuel : Nat) (arena : List Label) (newIdx : Nat)
    (store : List Nat) (i : Nat) (h : i < store.length)
    (hd1 : ¬ (getL arena (store.getD i 0)).dominates (getL arena newIdx) = true)
    (hd2 : (getL arena newIdx).dominates (getL arena (store.getD i 0)) = true) :
    updatedominanceAux (fuel + 1) arena newIdx store i =
      updatedominanceAux fuel (Label.marksuccessors arena (store.getD i 0)) newIdx
        (swapRemove store i) i := by
  simp only [updatedominanceAux]
  rw [if_pos h, if_neg hd1, if_pos hd2]

theorem ud_step_keep (fuel : Nat) (arena : List Label) (newIdx : Nat)
    (store : List Nat) (i : Nat) (h : i < store.length)
    (hd1 : ¬ (getL arena (store.getD i 0)).dominates (getL arena newIdx) = true)
    (hd2 : ¬ (getL arena newIdx).dominates (getL arena (store.getD i 0)) = true) :
    updatedominanceAux (fuel + 1) arena newIdx store i =
      updatedominanceAux fuel arena newIdx store (i + 1) := by
  simp only [updatedominanceAux]
  rw [if_pos h, if_neg hd1, if_neg hd2]

/-- Master specification of the `updatedominance` scan loop: the arena only
gains `ignore` flags, the resulting store holds only old labels plus possibly
the new one, labels not dominated by the new label are never removed, the
antichain property is preserved, and on acceptance the new label is stored. -/
theorem updatedominanceAux_spec :
    ∀ (fuel : Nat) (arena : List Label) (newIdx : Nat) (store : List Nat) (i : Nat),
      store.length - i < fuel →
      (∀ j ∈ store, j < arena.length) →
      newIdx < arena.length →
      StoreAntichain arena store →
      (∀ x ∈ store.take i, nondom arena x newIdx) →
      ignOnlyArena (updatedominanceAux fuel arena newIdx store i).2.2 arena ∧
      (∀ j ∈ (updatedominanceAux fuel arena newIdx store i).2.1, j ∈ store ∨ j = newIdx) ∧
      (∀ j ∈ store, (getL arena newIdx).dominates (getL arena j) = false →
        j ∈ (updatedominanceAux fuel arena newIdx store i).2.1) ∧
      StoreAntichain arena (updatedominanceAux fuel arena newIdx store i).2.1 ∧
      ((updatedominanceAux fuel arena newIdx store i).1 = true →
        newIdx ∈ (updatedominanceAux fuel arena newIdx store i).2.1) := by
  intro fuel
  induction fuel with
  | zero => intro arena newIdx store i hfuel; omega
  | succ fuel ih =>
    intro arena newIdx store i hfuel hB hN hP hChk
    by_cases hi : i < store.length
    · by_cases hd1 : (getL arena (store.getD i 0)).dominates (getL arena newIdx) = true
      · rw [ud_step_reject fuel arena newIdx store i hi hd1]
        exact ⟨ignOnlyArena_refl arena, fun j hj => Or.inl hj, fun j hj _ => hj, hP,
          fun h => absurd h (by simp)⟩
      · by_cases hd2 : (getL arena newIdx).dominates (getL arena (store.getD i 0)) = true
        · rw [ud_step_remove fuel arena newIdx store i hi hd1 hd2]
          have hja : ignOnlyArena (Label.marksuccessors arena (store.getD i 0)) arena :=
            marksuccessors_ignOnlyArena arena (store.getD i 0)
          have hfuel' : (swapRemove store i).length - i < fuel := by
            rw [swapRemove_length]; omega
          have hB' : ∀ j ∈ swapRemove store i,
              j < (Label.marksuccessors arena (store.getD i 0)).length := by
            intro j hj
            rw [hja.1]
            exact hB j (swapRemove_subset store i hi j hj)
          have hN' : newIdx < (Label.marksuccessors arena (store.getD i 0)).length := by
            rw [hja.1]; exact hN
          have hP' : StoreAntichain (Label.marksuccessors arena (store.getD i 0))
              (swapRemove store i) :=
            (storeAntichain_congr hja _).mpr
              (swapRemove_pairwise (nondom_symm arena) store i hi hP)
          have hChk' : ∀ x ∈ (swapRemove store i).take i,
              nondom (Label.marksuccessors arena (store.getD i 0)) x newIdx := by
            intro x hx
            exact (nondom_congr hja _ _).mpr (hChk x (mem_take_swapRemove store i hi x hx))
          obtain ⟨c1, c2, c3, c4, c5⟩ := ih _ newIdx _ i hfuel' hB' hN' hP' hChk'
          refine ⟨ignOnlyArena_trans c1 hja, ?_, ?_, ?_, c5⟩
          · intro j hj
            rcases c2 j hj with h | h
            · exact Or.inl (swapRemove_subset store i hi j h)
            · exact Or.inr h
          · intro j hj hnd
            have hne : j ≠ store.getD i 0 := by
              intro he
              rw [he] at hnd
              rw [hnd] at hd2
              exact absurd hd2 (by simp)
            refine c3 j (mem_swapRemove_of_ne store i hi j hj hne) ?_
            rw [dominates_getL_congr hja]
            exact hnd
          · exact (storeAntichain_congr hja _).mp c4
        · rw [ud_step_keep fuel arena newIdx store i hi hd1 hd2]
          have hChk' : ∀ x ∈ store.take (i + 1), nondom arena x newIdx := by
            intro x hx
            rw [List.take_succ] at hx
            rcases List.mem_append.mp hx with h | h
            · exact hChk x h
            · have hgi : store[i]? = some (store.getD i 0) := by
                rw [List.getD_eq_getElem?_getD, List.getElem?_eq_getElem hi]
                rfl
              rw [hgi] at h
              simp only [Option.toList_some, List.mem_singleton] at h
              subst h
              exact ⟨eq_false_of_ne_true hd1, eq_false_of_ne_true hd2⟩
          exact ih arena newIdx store (i + 1) (by omega) hB hN hP hChk'
    · rw [ud_step_exit fuel arena newIdx store i hi]
      have htake : store.take i = store := List.take_of_length_le (by omega)
      refine ⟨ignOnlyArena_refl arena, ?_, ?_, ?_, ?_⟩
      · intro j hj
        rcases List.mem_append.mp hj with h | h
        · exact Or.inl h
        · exact Or.inr (List.mem_singleton.mp h)
      · intro j hj _
        exact List.mem_append_left _ hj
      · rw [StoreAntichain, List.pairwise_append]
        refine ⟨hP, List.pairwise_singleton _ _, ?_⟩
        intro a ha b hb
        rw [List.mem_singleton] at hb
        subst hb
        exact hChk a (by rw [htake]; exact ha)
      · intro _
        exact List.mem_append_right _ (List.mem_singleton.mpr rfl)

/-- The `updatedominance` entry point satisfies the scan-loop specification. -/
theorem updatedominance_spec (arena : List Label) (store : List Nat) (newIdx : Nat)
    (hB : ∀ j ∈ store, j < arena.length) (hN : newIdx < arena.length)
    (hP : StoreAntichain arena store) :
    ignOnlyArena (Label.updatedominance arena store newIdx).2.2 arena ∧
    (∀ j ∈ (Label.updatedominance arena store newIdx).2.1, j ∈ store ∨ j = newIdx) ∧
    (∀ j ∈ store, (getL arena newIdx).dominates (getL arena j) = false →
      j ∈ (Label.updatedominance arena store newIdx).2.1) ∧
    StoreAntichain arena (Label.updatedominance arena store newIdx).2.1 ∧
    ((Label.updatedominance arena store newIdx).1 = true →
      newIdx ∈ (Label.updatedominance arena store newIdx).2.1) :=
  updatedominanceAux_spec (store.length + 1) arena newIdx store 0 (by omega) hB hN hP
    (by simp)

/-- Appending fresh labels to the arena does not change the dominance relations
among the stored ones. -/
theorem storeAntichain_append (arena ext : List Label) (store : List Nat)
    (hB : ∀ j ∈ store, j < arena.length) (hA : StoreAntichain arena store) :
    StoreAntichain (arena ++ ext) store := by
  refine hA.imp_of_mem ?_
  intro a b ha hb h
  unfold nondom at h ⊢
  rw [getL_append_left _ _ _ (hB a ha), getL_append_left _ _ _ (hB b hb)]
  exact h

/-- Claim C4: the per-vertex stores are antichains under dominance — starting
from any store that is an antichain (in particular the empty store or the
depot store seeded with the initial label), after any sequence of
`updatedominance` calls no two distinct labels remaining in the store dominate
each other.  (`hB` says the store's indices denote arena labels.) -/
theorem claim4_store_antichain :
    ∀ (ls : List Label) (arena : List Label) (store : List Nat),
      (∀ j ∈ store, j < arena.length) →
      StoreAntichain arena store →
      StoreAntichain (insertSeq arena store ls).2 (insertSeq arena store ls).1 := by
  intro ls
  induction ls with
  | nil =>
    intro arena store hB hA
    exact hA
  | cons l ls ihl =>
    intro arena store hB hA
    have hlen : (arena ++ [l]).length - 1 = arena.length := by
      rw [List.length_append]
      simp
    have hB1 : ∀ j ∈ store, j < (arena ++ [l]).length := by
      intro j hj
      rw [List.length_append]
      exact Nat.lt_succ_of_lt (hB j hj)
    have hN1 : (arena ++ [l]).length - 1 < (arena ++ [l]).length := by
      rw [List.length_append]
      simp
    have hA1 : StoreAntichain (arena ++ [l]) store := storeAntichain_append arena [l] store hB hA
    obtain ⟨c1, c2, c3, c4, c5⟩ := updatedominance_spec (arena ++ [l]) store
      ((arena ++ [l]).length - 1) hB1 hN1 hA1
    have hB2 : ∀ j ∈ (Label.updatedominance (arena ++ [l]) store ((arena ++ [l]).length - 1)).2.1,
        j < (Label.updatedominance (arena ++ [l]) store ((arena ++ [l]).length - 1)).2.2.length := by
      intro j hj
      rw [c1.1]
      rcases c2 j hj with h | h
      · exact hB1 j h
      · rw [h]
        exact hN1
    have hA2 := (storeAntichain_congr c1 _).mpr c4
    exact ihl _ _ hB2 hA2

/-- Witness for C4: inserting three concrete labels into an initially empty
store yields an antichain. -/
theorem claim4_witness :
    (∀ j ∈ ([] : List Nat), j < ([] : List Label).length) ∧
    StoreAntichain [] [] ∧
    StoreAntichain (insertSeq [] [] [wA, wB, wN]).2 (insertSeq [] [] [wA, wB, wN]).1 :=
  ⟨by simp, List.Pairwise.nil,
    claim4_store_antichain [wA, wB, wN] [] [] (by simp) List.Pairwise.nil⟩

theorem getD_mem_of_lt (store : List Nat) (i : Nat) (hi : i < store.length) :
    store.getD i 0 ∈ store := by
  rw [List.getD_eq_getElem?_getD, List.getElem?_eq_getElem hi]
  exact List.getElem_mem hi

/-- Under uniform label dimensions, a store that is an antichain and already
contains a dominator of the new label makes the scan reject without any
mutation: removals cannot precede the rejection because dominance is
transitive. -/
theorem updatedominanceAux_reject :
    ∀ (fuel : Nat) (arena : List Label) (newIdx : Nat) (store : List Nat) (i : Nat),
      store.length - i < fuel →
      StoreAntichain arena store →
      (∀ j ∈ store, (getL arena j).visited.length = (getL arena newIdx).visited.length) →
      (∀ j ∈ store, (getL arena j).q.length = (getL arena newIdx).q.length) →
      (∃ b ∈ store, (getL arena b).dominates (getL arena newIdx) = true) →
      (∀ x ∈ store.take i, (getL arena x).dominates (getL arena newIdx) = false) →
      updatedominanceAux fuel arena newIdx store i = (false, store, arena) := by
  intro fuel
  induction fuel with
  | zero => intro arena newIdx store i hfuel; omega
  | succ fuel ih =>
    intro arena newIdx store i hfuel hP hV hQ hDom hChk
    by_cases hi : i < store.length
    · by_cases hd1 : (getL arena (store.getD i 0)).dominates (getL arena newIdx) = true
      · exact ud_step_reject fuel arena newIdx store i hi hd1
      · by_cases hd2 : (getL arena newIdx).dominates (getL arena (store.getD i 0)) = true
        · exfalso
          obtain ⟨b, hb, hdb⟩ := hDom
          have hli_mem : store.getD i 0 ∈ store := getD_mem_of_lt store i hi
          by_cases hbe : b = store.getD i 0
          · rw [hbe] at hdb
            exact hd1 hdb
          · have htr : (getL arena b).dominates (getL arena (store.getD i 0)) = true :=
              dominates_trans (hV b hb) (hV _ hli_mem).symm (hQ b hb) (hQ _ hli_mem).symm
                hdb hd2
            have hnd : nondom arena b (store.getD i 0) :=
              hP.forall (fun a b h => nondom_symm arena a b h) hb hli_mem hbe
            rw [hnd.1] at htr
            exact absurd htr (by simp)
        · rw [ud_step_keep fuel arena newIdx store i hi hd1 hd2]
          have hChk' : ∀ x ∈ store.take (i + 1),
              (getL arena x).dominates (getL arena newIdx) = false := by
            intro x hx
            rw [List.take_succ] at hx
            rcases List.mem_append.mp hx with h | h
            · exact hChk x h
            · have hgi : store[i]? = some (store.getD i 0) := by
                rw [List.getD_eq_getElem?_getD, List.getElem?_eq_getElem hi]
                rfl
              rw [hgi] at h
              simp only [Option.toList_some, List.mem_singleton] at h
              subst h
              exact eq_false_of_ne_true hd1
          exact ih arena newIdx store (i + 1) (by omega) hP hV hQ hDom hChk'
    · exfalso
      obtain ⟨b, hb, hdb⟩ := hDom
      have hbt : b ∈ store.take i := by
        rw [List.take_of_length_le (by omega)]
        exact hb
      have := hChk b hbt
      rw [hdb] at this
      exact absurd this (by simp)

/-- Claim C5 counterexample: the mutation-free-rejection claim, as stated,
fails on the code.  The store `[0, 1]` of `arenaC5` is an antichain with
finite costs, label 1 already in the store dominates the incoming label 2, yet
`updatedominance` removes label 0 (dominated by the newcomer) and marks its
cascade before label 1 rejects the newcomer, so the store is mutated. -/
theorem claim5_counterexample :
    StoreAntichain arenaC5 [0, 1] ∧
    (∃ b ∈ [(0 : Nat), 1], (getL arenaC5 b).dominates (getL arenaC5 2) = true) ∧
    ¬ Label.updatedominance arenaC5 [0, 1] 2 = (false, [0, 1], arenaC5) := by
  refine ⟨?_, ⟨1, by decide, by decide⟩, by decide⟩
  unfold StoreAntichain
  refine List.Pairwise.cons ?_ (List.pairwise_singleton _ _)
  intro b hb
  rw [List.mem_singleton] at hb
  subst hb
  exact ⟨by decide, by decide⟩

/-- Claim C5 (amended): rejection is atomic for stores whose labels form an
antichain, have finite costs, and — as the counterexample forces — have
`visited` and `q` vectors of the same lengths as the new label's: if some
stored label dominates the new label, `updatedominance` returns false and
performs no mutation at all. -/
theorem claim5_amended_atomic_rejection (arena : List Label) (store : List Nat)
    (newIdx : Nat)
    (hA : StoreAntichain arena store)
    (hV : ∀ j ∈ store, (getL arena j).visited.length = (getL arena newIdx).visited.length)
    (hQ : ∀ j ∈ store, (getL arena j).q.length = (getL arena newIdx).q.length)
    (hDom : ∃ b ∈ store, (getL arena b).dominates (getL arena newIdx) = true) :
    Label.updatedominance arena store newIdx = (false, store, arena) :=
  updatedominanceAux_reject (store.length + 1) arena newIdx store 0 (by omega) hA hV hQ
    hDom (by simp)

/-- Witness for the amended C5 at a concrete store. -/
theorem claim5_witness :
    StoreAntichain [wN, wN] [0] ∧
    (∀ j ∈ [(0 : Nat)], (getL [wN, wN] j).visited.length = (getL [wN, wN] 1).visited.length) ∧
    (∀ j ∈ [(0 : Nat)], (getL [wN, wN] j).q.length = (getL [wN, wN] 1).q.length) ∧
    (∃ b ∈ [(0 : Nat)], (getL [wN, wN] b).dominates (getL [wN, wN] 1) = true) ∧
    Label.updatedominance [wN, wN] [0] 1 = (false, [0], [wN, wN]) :=
  ⟨List.pairwise_singleton _ _, by decide, by decide, ⟨0, by decide, by decide⟩,
    claim5_amended_atomic_rejection [wN, wN] [0] 1 (List.pairwise_singleton _ _)
      (by decide) (by decide) ⟨0, by decide, by decide⟩⟩

/-! ## Successor reachability and cascade completeness -/

theorem ignore_mono {a' a : List Label} (h : ignOnlyArena a' a) (j : Nat)
    (hj : (getL a j).ignore = true) : (getL a' j).ignore = true := by
  rcases h.2 j with he | he <;> rw [he]
  exact hj

theorem succs_eq_of_ignOnlyArena {a' a : List Label} (h : ignOnlyArena a' a) (k : Nat) :
    (getL a' k).successors = (getL a k).successors :=
  (ignOnly_fields (h.2 k)).2.2.2.2.2.2

theorem succReach_congr {a' a : List Label} (h : ignOnlyArena a' a) (i j : Nat) :
    SuccReach a' i j ↔ SuccReach a i j := by
  constructor
  · intro hr
    induction hr with
    | step j hj => exact SuccReach.step j (succs_eq_of_ignOnlyArena h i ▸ hj)
    | trans k j _ hj ih => exact SuccReach.trans k j ih (succs_eq_of_ignOnlyArena h k ▸ hj)
  · intro hr
    induction hr with
    | step j hj => exact SuccReach.step j ((succs_eq_of_ignOnlyArena h i).symm ▸ hj)
    | trans k j _ hj ih =>
        exact SuccReach.trans k j ih ((succs_eq_of_ignOnlyArena h k).symm ▸ hj)

theorem succReach_decomp {a : List Label} {i j : Nat} (h : SuccReach a i j) :
    j ∈ (getL a i).successors ∨ ∃ s ∈ (getL a i).successors, SuccReach a s j := by
  induction h with
  | step j hj => exact Or.inl hj
  | trans k j _ hj ih =>
      rcases ih with hk | ⟨s, hs, hks⟩
      · exact Or.inr ⟨k, hk, SuccReach.step j hj⟩
      · exact Or.inr ⟨s, hs, SuccReach.trans k j hks hj⟩

/-- The marking engine: with per-root depth fuel at least `a.length - i`, every
label reachable from the root set (the roots themselves included) ends up with
`ignore = true`. -/
theorem mark_marks :
    ∀ (fuel : Nat) (roots : List Nat) (a : List Label),
      (∀ k, k < a.length → ∀ j ∈ (getL a k).successors, k < j ∧ j < a.length) →
      (∀ i ∈ roots, i < a.length ∧ a.length - i ≤ fuel) →
      ∀ j, (j ∈ roots ∨ ∃ i ∈ roots, SuccReach a i j) →
        (getL (marksuccessorsAux fuel a roots) j).ignore = true := by
  intro fuel
  induction fuel with
  | zero =>
    intro roots a _ hroots j hj
    rcases hj with hj | ⟨i, hi, _⟩
    · have := hroots j hj
      omega
    · have := hroots i hi
      omega
  | succ fuel ihf =>
    intro roots
    induction roots with
    | nil =>
      intro a _ _ j hj
      rcases hj with hj | ⟨i, hi, _⟩
      · exact absurd hj (List.not_mem_nil j)
      · exact absurd hi (List.not_mem_nil i)
    | cons i rest ihr =>
      intro a hmono hroots j hj
      rw [mark_cons]
      have hialen : i < a.length := (hroots i (List.mem_cons_self i rest)).1
      have hifuel : a.length - i ≤ fuel + 1 := (hroots i (List.mem_cons_self i rest)).2
      set a1 := a.set i { getL a i with ignore := true } with ha1def
      have hIOa1 : ignOnlyArena a1 a := ignOnlyArena_setIgnore a i
      have ha1len : a1.length = a.length := List.length_set a i _
      have hsucca1 : (getL a1 i).successors = (getL a i).successors :=
        succs_eq_of_ignOnlyArena hIOa1 i
      have hmono1 : ∀ k, k < a1.length → ∀ j ∈ (getL a1 k).successors, k < j ∧ j < a1.length := by
        intro k hk j hjk
        rw [succs_eq_of_ignOnlyArena hIOa1 k] at hjk
        rw [ha1len] at hk ⊢
        exact hmono k hk j hjk
      set a2 := marksuccessorsAux fuel a1 (getL a1 i).successors with ha2def
      have hIOa2 : ignOnlyArena a2 a1 := mark_ignOnlyArena fuel _ a1
      have hIOouter : ignOnlyArena (marksuccessorsAux (fuel + 1) a2 rest) a2 :=
        mark_ignOnlyArena (fuel + 1) rest a2
      rcases hj with hj | ⟨r, hr, hreach⟩
      · rcases List.mem_cons.mp hj with hji | hjrest
        · subst hji
          refine ignore_mono hIOouter j (ignore_mono hIOa2 j ?_)
          rw [ha1def, getL_set, if_pos ⟨rfl, hialen⟩]
        · refine ihr a2 ?_ ?_ j (Or.inl hjrest)
          · intro k hk j' hj'
            rw [succs_eq_of_ignOnlyArena (ignOnlyArena_trans hIOa2 hIOa1) k] at hj'
            rw [hIOa2.1, ha1len] at hk ⊢
            exact hmono k hk j' hj'
          · intro x hx
            rw [hIOa2.1, ha1len]
            exact hroots x (List.mem_cons_of_mem i hx)
      · rcases List.mem_cons.mp hr with hri | hrrest
        · subst hri
          refine ignore_mono hIOouter j ?_
          rw [ha2def]
          have hfuelroots : ∀ s ∈ (getL a1 r).successors, s < a1.length ∧ a1.length - s ≤ fuel := by
            intro s hs
            rw [hsucca1] at hs
            have := hmono r hialen s hs
            rw [ha1len]
            omega
          refine ihf _ a1 hmono1 hfuelroots j ?_
          rcases succReach_decomp hreach with hdir | ⟨s, hs, hsr⟩
          · exact Or.inl (hsucca1.symm ▸ hdir)
          · exact Or.inr ⟨s, hsucca1.symm ▸ hs, (succReach_congr hIOa1 s j).mpr hsr⟩
        · refine ihr a2 ?_ ?_ j ?_
          · intro k hk j' hj'
            rw [succs_eq_of_ignOnlyArena (ignOnlyArena_trans hIOa2 hIOa1) k] at hj'
            rw [hIOa2.1, ha1len] at hk ⊢
            exact hmono k hk j' hj'
          · intro x hx
            rw [hIOa2.1, ha1len]
            exact hroots x (List.mem_cons_of_mem i hx)
          · refine Or.inr ⟨r, hrrest, ?_⟩
            exact (succReach_congr (ignOnlyArena_trans hIOa2 hIOa1) r j).mpr hreach

/-- Claim C6: cascade completeness.  When a stored label `X` is removed because
a new label dominates it, the code invokes `marksuccessors` on `X`
(`updatedominance`, lines 94-99); this theorem shows that after
`marksuccessors` returns, every label reachable from `X` through one or more
successor links — transitively, arbitrarily deep — has `ignore = true`.  The
hypothesis is the arena's construction invariant: successor indices are
in-bounds and strictly larger than their parent's (labels are created in
creation order). -/
theorem claim6_cascade_completeness (a : List Label) (X : Nat)
    (hmono : ∀ k, k < a.length → ∀ j ∈ (getL a k).successors, k < j ∧ j < a.length) :
    ∀ j, SuccReach a X j → (getL (Label.marksuccessors a X) j).ignore = true := by
  intro j hreach
  unfold Label.marksuccessors
  by_cases hX : X < a.length
  · refine mark_marks a.length (getL a X).successors a hmono ?_ j ?_
    · intro s hs
      have := hmono X hX s hs
      omega
    · rcases succReach_decomp hreach with h | h
      · exact Or.inl h
      · exact Or.inr h
  · exfalso
    have hnil : (getL a X).successors = [] := by
      unfold getL
      rw [List.getD_eq_getElem?_getD, List.getElem?_eq_none (le_of_not_lt hX)]
      rfl
    rcases succReach_decomp hreach with h | ⟨s, hs, _⟩
    · rw [hnil] at h
      exact List.not_mem_nil j h
    · rw [hnil] at hs
      exact List.not_mem_nil s hs

/-- Witness for C6 on the concrete cascade `0 → 1 → 2`. -/
theorem claim6_witness :
    (∀ k, k < arenaC6.length → ∀ j ∈ (getL arenaC6 k).successors,
      k < j ∧ j < arenaC6.length) ∧
    (getL (Label.marksuccessors arenaC6 0) 2).ignore = true :=
  ⟨by decide,
    claim6_cascade_completeness arenaC6 0 (by decide) 2
      (SuccReach.trans 1 2 (SuccReach.step 1 (by decide)) (by decide))⟩

/-! ## Generic list-access helpers -/

theorem getD_set' {α : Type} (a : List α) (i j : Nat) (x dflt : α) :
    (a.set i x).getD j dflt = if i = j ∧ j < a.length then x else a.getD j dflt := by
  rw [List.getD_eq_getElem?_getD, List.getD_eq_getElem?_getD, List.getElem?_set]
  by_cases hij : i = j
  · subst hij
    by_cases hi : i < a.length
    · simp [hi]
    · simp [hi, List.getElem?_eq_none (le_of_not_lt hi)]
  · simp [hij]

theorem getD_replicate' {α : Type} (x dflt : α) (n i : Nat) (h : i < n) :
    (List.replicate n x).getD i dflt = x := by
  rw [List.getD_eq_getElem?_getD,
    List.getElem?_eq_getElem (by simpa using h), List.getElem_replicate]
  rfl

theorem getD_replicate_any {α : Type} (x : α) (n i : Nat) :
    (List.replicate n x).getD i x = x := by
  rcases lt_or_ge i n with h | h
  · exact getD_replicate' x x n i h
  · rw [List.getD_eq_getElem?_getD, List.getElem?_eq_none (by simpa using h)]
    rfl

theorem getL_mem (a : List Label) (i : Nat) (h : i < a.length) : getL a i ∈ a := by
  unfold getL
  rw [List.getD_eq_getElem?_getD, List.getElem?_eq_getElem h]
  exact List.getElem_mem h

/-! ## Core-preserving arena evolution -/

theorem coreEq_refl (x : Label) : coreEq x x := ⟨rfl, rfl, rfl, rfl, rfl⟩

theorem coreEq_trans {x y z : Label} (h1 : coreEq x y) (h2 : coreEq y z) : coreEq x z :=
  ⟨h1.1.trans h2.1, h1.2.1.trans h2.2.1, h1.2.2.1.trans h2.2.2.1,
    h1.2.2.2.1.trans h2.2.2.2.1, h1.2.2.2.2.trans h2.2.2.2.2⟩

theorem coreEq_of_ignOnly {x y : Label} (h : ignOnly x y) : coreEq x y := by
  obtain ⟨h1, h2, h3, h4, h5, _, _⟩ := ignOnly_fields h
  exact ⟨h1, h2, h3, h4, h5⟩

/-- `dominates` only reads the core fields. -/
theorem dominates_coreEq_congr {x x' y y' : Label} (hx : coreEq x' x) (hy : coreEq y' y) :
    x'.dominates y' = x.dominates y := by
  obtain ⟨_, hv, hc, hl, hq⟩ := hx
  obtain ⟨_, hv', hc', hl', hq'⟩ := hy
  unfold Label.dominates
  rw [hv, hc, hl, hq, hv', hc', hl', hq']

theorem arenaExt_refl (a : List Label) : arenaExt a a :=
  ⟨le_refl _, fun j _ => coreEq_refl _⟩

theorem arenaExt_trans {a b c : List Label} (h1 : arenaExt a b) (h2 : arenaExt b c) :
    arenaExt a c :=
  ⟨h2.1.trans h1.1, fun j hj => coreEq_trans (h1.2 j (lt_of_lt_of_le hj h2.1)) (h2.2 j hj)⟩

theorem arenaExt_of_ignOnlyArena {a' a : List Label} (h : ignOnlyArena a' a) :
    arenaExt a' a :=
  ⟨le_of_eq h.1.symm, fun j _ => coreEq_of_ignOnly (h.2 j)⟩

theorem arenaExt_append (a ext : List Label) : arenaExt (a ++ ext) a := by
  refine ⟨by simp, fun j hj => ?_⟩
  rw [getL_append_left a ext j hj]
  exact coreEq_refl _

theorem arenaExt_set_coreEq (a : List Label) (i : Nat) (x : Label)
    (hx : coreEq x (getL a i)) : arenaExt (a.set i x) a := by
  refine ⟨le_of_eq (List.length_set a i x).symm, fun j hj => ?_⟩
  rw [getL_set]
  by_cases h : i = j ∧ j < a.length
  · rw [if_pos h, ← h.1]
    exact hx
  · rw [if_neg h]
    exact coreEq_refl _

theorem getL_eq_getElem (a : List Label) (i : Nat) (h : i < a.length) :
    getL a i = a[i] := by
  unfold getL
  rw [List.getD_eq_getElem?_getD, List.getElem?_eq_getElem h]
  rfl

/-- Transferring a store antichain along a core-preserving arena evolution. -/
theorem storeAntichain_of_arenaExt {a' a : List Label} (h : arenaExt a' a)
    (store : List Nat) (hB : ∀ j ∈ store, j < a.length) (hA : StoreAntichain a store) :
    StoreAntichain a' store := by
  refine hA.imp_of_mem ?_
  intro x y hx hy hxy
  unfold nondom at hxy ⊢
  rw [dominates_coreEq_congr (h.2 x (hB x hx)) (h.2 y (hB y hy)),
    dominates_coreEq_congr (h.2 y (hB y hy)) (h.2 x (hB x hx))]
  exact hxy

/-! ## The driver invariant -/

/-- Invariant transfer along a core- and length-preserving arena step. -/
theorem inv_coreSame {d : TSPData} {nres : Nat} {arena a' : List Label}
    {stores : List (List Nat)} (hInv : DriverInv d nres arena stores)
    (hlen : a'.length = arena.length)
    (hpt : ∀ j, j < arena.length → coreEq (getL a' j) (getL arena j)) :
    DriverInv d nres a' stores := by
  have hext : arenaExt a' arena := ⟨le_of_eq hlen.symm, hpt⟩
  refine ⟨?_, ?_, ?_, hInv.store0, hInv.slen, ?_, ?_, ?_, ?_, ?_⟩
  · intro i hi
    rw [hlen] at hi
    obtain ⟨_, hv, _, _, hq⟩ := hpt i hi
    rw [hv, hq]
    exact hInv.lens i hi
  · intro he
    refine hInv.ne (List.length_eq_zero.mp ?_)
    rw [← hlen, he]
    rfl
  · exact coreEq_trans (hpt 0 (List.length_pos.mpr hInv.ne)) hInv.init0
  · intro v j hj
    rw [hlen]
    exact hInv.sbound v j hj
  · intro v j hj
    obtain ⟨hat, _, _, _, _⟩ := hpt j (hInv.sbound v j hj)
    rw [hat]
    exact hInv.atv v j hj
  · intro i hi
    rw [hlen] at hi
    obtain ⟨hat, hv, _, _, _⟩ := hpt i hi
    rw [hat, hv]
    exact hInv.vis0 i hi
  · intro i hi
    rw [hlen] at hi
    obtain ⟨hat, hv, _, _, _⟩ := hpt i hi
    rw [hat, hv]
    exact hInv.at0 i hi
  · intro v
    exact storeAntichain_of_arenaExt hext _ (hInv.sbound v) (hInv.anti v)

/-- Invariant preservation by `marksuccessors`-style mutations. -/
theorem inv_ignOnly {d : TSPData} {nres : Nat} {arena a' : List Label}
    {stores : List (List Nat)} (hInv : DriverInv d nres arena stores)
    (h : ignOnlyArena a' arena) : DriverInv d nres a' stores :=
  inv_coreSame hInv h.1 (fun j _ => coreEq_of_ignOnly (h.2 j))

/-- Invariant preservation by overwriting one entry with a core-equal label. -/
theorem inv_set {d : TSPData} {nres : Nat} {arena : List Label}
    {stores : List (List Nat)} (hInv : DriverInv d nres arena stores) (li : Nat) (x : Label)
    (hx : coreEq x (getL arena li)) : DriverInv d nres (arena.set li x) stores :=
  inv_coreSame hInv (List.length_set arena li x) (arenaExt_set_coreEq arena li x hx).2

/-- Invariant preservation by appending one freshly created label. -/
theorem inv_append {d : TSPData} {nres : Nat} {arena : List Label}
    {stores : List (List Nat)} (hInv : DriverInv d nres arena stores) (nl : Label)
    (hv : nl.visited.length = d.n) (hq : nl.q.length = nres)
    (h0t : nl.«at» = 0 → nl.visited.getD 0 false = true)
    (h0f : nl.«at» ≠ 0 → nl.visited.getD 0 false = false) :
    DriverInv d nres (arena ++ [nl]) stores := by
  have hlen : (arena ++ [nl]).length = arena.length + 1 := by simp
  have hpos : 0 < arena.length := List.length_pos.mpr hInv.ne
  have hsplit : ∀ i, i < arena.length + 1 →
      (i < arena.length ∧ getL (arena ++ [nl]) i = getL arena i) ∨
      (i = arena.length ∧ getL (arena ++ [nl]) i = nl) := by
    intro i hi
    rcases lt_or_ge i arena.length with h | h
    · exact Or.inl ⟨h, getL_append_left arena [nl] i h⟩
    · have : i = arena.length := by omega
      subst this
      exact Or.inr ⟨rfl, getL_append_new arena nl⟩
  refine ⟨?_, ?_, ?_, hInv.store0, hInv.slen, ?_, ?_, ?_, ?_, ?_⟩
  · intro i hi
    rw [hlen] at hi
    rcases hsplit i hi with ⟨h1, h2⟩ | ⟨h1, h2⟩
    · rw [h2]; exact hInv.lens i h1
    · rw [h2]; exact ⟨hv, hq⟩
  · simp
  · rw [getL_append_left arena [nl] 0 hpos]
    exact hInv.init0
  · intro v j hj
    rw [hlen]
    exact Nat.lt_succ_of_lt (hInv.sbound v j hj)
  · intro v j hj
    rw [getL_append_left arena [nl] j (hInv.sbound v j hj)]
    exact hInv.atv v j hj
  · intro i hi
    rw [hlen] at hi
    rcases hsplit i hi with ⟨h1, h2⟩ | ⟨h1, h2⟩
    · rw [h2]; exact hInv.vis0 i h1
    · rw [h2]; exact h0f
  · intro i hi hne
    rw [hlen] at hi
    rcases hsplit i hi with ⟨h1, h2⟩ | ⟨h1, h2⟩
    · rw [h2]; exact hInv.at0 i h1 hne
    · rw [h2]; exact h0t
  · intro v
    exact storeAntichain_of_arenaExt (arenaExt_append arena [nl]) _
      (hInv.sbound v) (hInv.anti v)

/-- Invariant preservation by replacing the store of vertex `succ`. -/
theorem inv_setStore {d : TSPData} {nres : Nat} {arena : List Label}
    {stores : List (List Nat)} (hInv : DriverInv d nres arena stores)
    (succ newIdx : Nat) (s' : List Nat)
    (hmem : ∀ j ∈ s', j ∈ stores.getD succ [] ∨ j = newIdx)
    (hnewb : newIdx < arena.length)
    (hnewat : (getL arena newIdx).«at» = succ)
    (h0 : succ = 0 → 0 ∈ s')
    (hanti : StoreAntichain arena s') :
    DriverInv d nres arena (stores.set succ s') := by
  have hget : ∀ v, (stores.set succ s').getD v [] =
      if succ = v ∧ v < stores.length then s' else stores.getD v [] := by
    intro v
    exact getD_set' stores succ v s' []
  refine ⟨hInv.lens, hInv.ne, hInv.init0, ?_, ?_, ?_, ?_, hInv.vis0, hInv.at0, ?_⟩
  · rw [hget 0]
    by_cases hc : succ = 0 ∧ 0 < stores.length
    · rw [if_pos hc]
      exact h0 hc.1
    · rw [if_neg hc]
      exact hInv.store0
  · rw [List.length_set]
    exact hInv.slen
  · intro v j hj
    rw [hget v] at hj
    by_cases hc : succ = v ∧ v < stores.length
    · rw [if_pos hc] at hj
      rcases hmem j hj with h | h
      · exact hInv.sbound succ j h
      · rw [h]; exact hnewb
    · rw [if_neg hc] at hj
      exact hInv.sbound v j hj
  · intro v j hj
    rw [hget v] at hj
    by_cases hc : succ = v ∧ v < stores.length
    · rw [if_pos hc] at hj
      rcases hmem j hj with h | h
      · rw [← hc.1]
        exact hInv.atv succ j h
      · rw [h, ← hc.1]
        exact hnewat
    · rw [if_neg hc] at hj
      exact hInv.atv v j hj
  · intro v
    rw [hget v]
    by_cases hc : succ = v ∧ v < stores.length
    · rw [if_pos hc]
      exact hanti
    · rw [if_neg hc]
      exact hInv.anti v

theorem bumpQ_length (vertex : Nat) : ∀ (i : Nat) (q : List Nat),
    (bumpQ vertex i q).length = q.length := by
  intro i q
  induction q generalizing i with
  | nil => rfl
  | cons x xs ih => simp only [bumpQ, List.length_cons, ih]

/-- A label extended to the depot has `visited[0] = true`, hence can never
dominate (the core of) the synthetic initial label, whose `visited` is
all-false. -/
theorem extend_to_depot_not_dominates (d : TSPData) (nres : Nat) (hn : 1 ≤ d.n)
    (p : Label) (pi : Nat) (hp : p.visited.length = d.n)
    (l0 : Label) (hl0 : coreEq l0 (Label.empty d nres)) :
    (Label.extend d p pi 0).dominates l0 = false := by
  obtain ⟨_, hv0, _, _, _⟩ := hl0
  have hvl0 : l0.visited = List.replicate d.n false := hv0
  have hnl : (Label.extend d p pi 0).visited = p.visited.set 0 true := rfl
  rcases hpv : p.visited with _ | ⟨b, bs⟩
  · rw [hpv] at hp
    simp at hp
    omega
  rcases hrep : l0.visited with _ | ⟨c, cs⟩
  · rw [hrep] at hvl0
    rcases hd : d.n with _ | m
    · omega
    · rw [hd] at hvl0
      simp [List.replicate] at hvl0
  have hc : c = false := by
    rcases hd : d.n with _ | m
    · omega
    · rw [hd, List.replicate] at hvl0
      rw [hrep] at hvl0
      exact (List.cons.injEq _ _ _ _ ▸ hvl0).1
  unfold Label.dominates
  split_ifs with h1 h2 h3
  · rfl
  · rfl
  · rfl
  · exfalso
    rw [hnl, hpv, hrep, hc] at h2
    simp only [List.set_cons_zero, List.zip_cons_cons, List.any_cons] at h2
    simp at h2

theorem visited_set_getD_zero (l : List Bool) (succ : Nat) (hlen : 0 < l.length) :
    (l.set succ true).getD 0 false =
      if succ = 0 then true else l.getD 0 false := by
  rw [getD_set' l succ 0 true false]
  by_cases h : succ = 0
  · rw [if_pos h, if_pos ⟨h, hlen⟩]
  · rw [if_neg h, if_neg (fun hc => h hc.1)]

/-! ## Branch equations for `extendStep` -/

theorem extendStep_skip (d : TSPData) (nres cap : Nat) (maxlen : Int) (n li succ : Nat)
    (st : SolveState)
    (h : ((getL st.arena li).visited.getD succ false || (succ == n)) = true) :
    extendStep d nres cap maxlen n li succ st = st := by
  simp only [extendStep, h]
  simp

theorem extendStep_skip2 (d : TSPData) (nres cap : Nat) (maxlen : Int) (n li succ : Nat)
    (st : SolveState)
    (h1 : ((getL st.arena li).visited.getD succ false || (succ == n)) = false)
    (h2 : lengthOk d maxlen n succ (getL st.arena li) = false) :
    extendStep d nres cap maxlen n li succ st = st := by
  simp only [extendStep, h1, h2]
  simp

theorem extendStep_skip3 (d : TSPData) (nres cap : Nat) (maxlen : Int) (n li succ : Nat)
    (st : SolveState)
    (h1 : ((getL st.arena li).visited.getD succ false || (succ == n)) = false)
    (h2 : lengthOk d maxlen n succ (getL st.arena li) = true)
    (h3 : rfeas nres cap succ (getL st.arena li) = false) :
    extendStep d nres cap maxlen n li succ st = st := by
  simp only [extendStep, h1, h2, h3]
  simp

theorem extendStep_main (d : TSPData) (nres cap : Nat) (maxlen : Int) (n li succ : Nat)
    (st : SolveState)
    (h1 : ((getL st.arena li).visited.getD succ false || (succ == n)) = false)
    (h2 : lengthOk d maxlen n succ (getL st.arena li) = true)
    (h3 : rfeas nres cap succ (getL st.arena li) = true) :
    extendStep d nres cap maxlen n li succ st =
      (let nl := Label.extend d (getL st.arena li) li succ
      let newIdx := st.arena.length
      let arena1 := st.arena ++ [nl]
      let r := Label.updatedominance arena1 (st.stores.getD succ []) newIdx
      let arena2 := r.2.2
      let stores2 := st.stores.set succ r.2.1
      if r.1 then
        let arena3 := arena2.set li
          { getL arena2 li with successors := (getL arena2 li).successors ++ [newIdx] }
        if !(st.in_q.getD succ false) && succ != 0 then
          { arena := arena3, stores := stores2, queue := st.queue ++ [succ],
            in_q := st.in_q.set succ true }
        else
          { arena := arena3, stores := stores2, queue := st.queue, in_q := st.in_q }
      else
        { arena := arena2, stores := stores2, queue := st.queue, in_q := st.in_q }) := by
  simp only [extendStep, h1, h2, h3]
  simp

/-- Invariant preservation by one candidate-successor step of the driver.
The hypothesis `hvis0` (the expanded label has not closed a route) is supplied
by the caller: labels of non-depot stores satisfy it by the invariant, and the
depot store is only ever expanded in the initial state. -/
theorem extendStep_inv (d : TSPData) (nres cap : Nat) (maxlen : Int) (n li succ : Nat)
    (st : SolveState) (hInv : DriverInv d nres st.arena st.stores)
    (hn : 1 ≤ d.n) (hli : li < st.arena.length) (hsucc : succ < d.n)
    (hvis0 : (getL st.arena li).visited.getD 0 false = false) :
    DriverInv d nres (extendStep d nres cap maxlen n li succ st).arena
      (extendStep d nres cap maxlen n li succ st).stores ∧
    arenaExt (extendStep d nres cap maxlen n li succ st).arena st.arena ∧
    (∀ x ∈ (extendStep d nres cap maxlen n li succ st).queue, x ∈ st.queue ∨ x ≠ 0) := by
  by_cases h1 : ((getL st.arena li).visited.getD succ false || (succ == n)) = true
  · rw [extendStep_skip d nres cap maxlen n li succ st h1]
    exact ⟨hInv, arenaExt_refl _, fun x hx => Or.inl hx⟩
  have h1' := eq_false_of_ne_true h1
  by_cases h2 : lengthOk d maxlen n succ (getL st.arena li) = true
  swap
  · rw [extendStep_skip2 d nres cap maxlen n li succ st h1' (eq_false_of_ne_true h2)]
    exact ⟨hInv, arenaExt_refl _, fun x hx => Or.inl hx⟩
  by_cases h3 : rfeas nres cap succ (getL st.arena li) = true
  swap
  · rw [extendStep_skip3 d nres cap maxlen n li succ st h1' h2 (eq_false_of_ne_true h3)]
    exact ⟨hInv, arenaExt_refl _, fun x hx => Or.inl hx⟩
  rw [extendStep_main d nres cap maxlen n li succ st h1' h2 h3]
  simp only []
  have hlens := hInv.lens li hli
  have hvlen : (Label.extend d (getL st.arena li) li succ).visited.length = d.n := by
    simp only [Label.extend, List.length_set]
    exact hlens.1
  have hvpos : 0 < (getL st.arena li).visited.length := by
    rw [hlens.1]; omega
  have hget0 : (Label.extend d (getL st.arena li) li succ).visited.getD 0 false =
      if succ = 0 then true else (getL st.arena li).visited.getD 0 false :=
    visited_set_getD_zero (getL st.arena li).visited succ hvpos
  have hInv1 : DriverInv d nres (st.arena ++ [Label.extend d (getL st.arena li) li succ])
      st.stores := by
    have hqlen : (Label.extend d (getL st.arena li) li succ).q.length = nres := by
      show (bumpQ succ 0 (getL st.arena li).q).length = nres
      rw [bumpQ_length]
      exact hlens.2
    refine inv_append hInv _ hvlen hqlen ?_ ?_
    · intro hat0
      have hs0 : succ = 0 := hat0
      rw [hget0, if_pos hs0]
    · intro hatne
      have hs0 : succ ≠ 0 := hatne
      rw [hget0, if_neg hs0]
      exact hvis0
  have harena1len : (st.arena ++ [Label.extend d (getL st.arena li) li succ]).length =
      st.arena.length + 1 := by simp
  have hB1 : ∀ j ∈ st.stores.getD succ [],
      j < (st.arena ++ [Label.extend d (getL st.arena li) li succ]).length := by
    intro j hj
    rw [harena1len]
    exact Nat.lt_succ_of_lt (hInv.sbound succ j hj)
  have hN1 : st.arena.length <
      (st.arena ++ [Label.extend d (getL st.arena li) li succ]).length := by
    rw [harena1len]; omega
  obtain ⟨c1, c2, c3, c4, c5⟩ := updatedominance_spec
    (st.arena ++ [Label.extend d (getL st.arena li) li succ])
    (st.stores.getD succ []) st.arena.length hB1 hN1 (hInv1.anti succ)
  set arena1 := st.arena ++ [Label.extend d (getL st.arena li) li succ] with harena1
  set r := Label.updatedominance arena1 (st.stores.getD succ []) st.arena.length with hr
  have hext1 : arenaExt arena1 st.arena := arenaExt_append st.arena _
  have hext2 : arenaExt r.2.2 st.arena :=
    arenaExt_trans (arenaExt_of_ignOnlyArena c1) hext1
  have hInv2 : DriverInv d nres r.2.2 st.stores := inv_ignOnly hInv1 c1
  have hgetNew : getL arena1 st.arena.length = Label.extend d (getL st.arena li) li succ :=
    getL_append_new st.arena _
  have hnewCore : coreEq (getL r.2.2 st.arena.length)
      (Label.extend d (getL st.arena li) li succ) := by
    refine coreEq_trans (coreEq_of_ignOnly (c1.2 st.arena.length)) ?_
    rw [hgetNew]
    exact coreEq_refl _
  have hnewat2 : (getL r.2.2 st.arena.length).«at» = succ := hnewCore.1
  have h0mem : succ = 0 → 0 ∈ r.2.1 := by
    intro hs0
    refine c3 0 ?_ ?_
    · rw [hs0]
      exact hInv.store0
    · rw [hgetNew]
      have : Label.extend d (getL st.arena li) li succ =
          Label.extend d (getL st.arena li) li 0 := by rw [hs0]
      rw [this]
      exact extend_to_depot_not_dominates d nres hn (getL st.arena li) li hlens.1
        (getL arena1 0) hInv1.init0
  have hBr : ∀ j ∈ r.2.1, j < arena1.length := by
    intro j hj
    rcases c2 j hj with h | h
    · exact hB1 j h
    · rw [h]; exact hN1
  have hanti2 : StoreAntichain r.2.2 r.2.1 :=
    storeAntichain_of_arenaExt (arenaExt_of_ignOnlyArena c1) r.2.1 hBr c4
  have hInv3 : DriverInv d nres r.2.2 (st.stores.set succ r.2.1) :=
    inv_setStore hInv2 succ st.arena.length r.2.1 c2 (by rw [c1.1]; exact hN1)
      hnewat2 h0mem hanti2
  by_cases hadd : r.1 = true
  · rw [if_pos hadd]
    have hcore3 : coreEq
        { getL r.2.2 li with successors := (getL r.2.2 li).successors ++ [st.arena.length] }
        (getL r.2.2 li) := ⟨rfl, rfl, rfl, rfl, rfl⟩
    have hInv4 : DriverInv d nres
        (r.2.2.set li { getL r.2.2 li with
          successors := (getL r.2.2 li).successors ++ [st.arena.length] })
        (st.stores.set succ r.2.1) := inv_set hInv3 li _ hcore3
    have hext4 : arenaExt
        (r.2.2.set li { getL r.2.2 li with
          successors := (getL r.2.2 li).successors ++ [st.arena.length] })
        st.arena := arenaExt_trans (arenaExt_set_coreEq _ li _ hcore3) hext2
    by_cases henq : (!(st.in_q.getD succ false) && succ != 0) = true
    · rw [if_pos henq]
      refine ⟨hInv4, hext4, ?_⟩
      intro x hx
      rcases List.mem_append.mp hx with h | h
      · exact Or.inl h
      · rw [List.mem_singleton] at h
        subst h
        refine Or.inr ?_
        have hand := henq
        simp only [Bool.and_eq_true] at hand
        simpa using hand.2
    · rw [if_neg henq]
      exact ⟨hInv4, hext4, fun x hx => Or.inl hx⟩
  · rw [if_neg hadd]
    exact ⟨hInv3, hext2, fun x hx => Or.inl hx⟩

theorem processLabel_ignored (d : TSPData) (nres cap : Nat) (maxlen : Int) (n li : Nat)
    (st : SolveState) (h : (getL st.arena li).ignore = true) :
    processLabel d nres cap maxlen n li st = st := by
  simp only [processLabel, h]
  simp

theorem processLabel_active (d : TSPData) (nres cap : Nat) (maxlen : Int) (n li : Nat)
    (st : SolveState) (h : (getL st.arena li).ignore = false) :
    processLabel d nres cap maxlen n li st =
      (let st1 := (List.range d.n).foldl
        (fun s succ => extendStep d nres cap maxlen n li succ s) st
      { st1 with arena := st1.arena.set li { getL st1.arena li with ignore := true } }) := by
  simp only [processLabel, h]
  simp

/-- Invariant preservation by processing one label of the dequeued vertex. -/
theorem processLabel_inv (d : TSPData) (nres cap : Nat) (maxlen : Int) (n li : Nat)
    (st : SolveState) (hInv : DriverInv d nres st.arena st.stores)
    (hn : 1 ≤ d.n) (hli : li < st.arena.length)
    (hvis0 : (getL st.arena li).visited.getD 0 false = false) :
    DriverInv d nres (processLabel d nres cap maxlen n li st).arena
      (processLabel d nres cap maxlen n li st).stores ∧
    arenaExt (processLabel d nres cap maxlen n li st).arena st.arena ∧
    (∀ x ∈ (processLabel d nres cap maxlen n li st).queue, x ∈ st.queue ∨ x ≠ 0) := by
  by_cases hig : (getL st.arena li).ignore = true
  · rw [processLabel_ignored d nres cap maxlen n li st hig]
    exact ⟨hInv, arenaExt_refl _, fun x hx => Or.inl hx⟩
  rw [processLabel_active d nres cap maxlen n li st (eq_false_of_ne_true hig)]
  simp only []
  have hfold : ∀ (succs : List Nat) (st1 : SolveState),
      (∀ s ∈ succs, s < d.n) →
      DriverInv d nres st1.arena st1.stores →
      arenaExt st1.arena st.arena →
      (∀ x ∈ st1.queue, x ∈ st.queue ∨ x ≠ 0) →
      DriverInv d nres
        ((succs.foldl (fun s succ => extendStep d nres cap maxlen n li succ s) st1).arena)
        ((succs.foldl (fun s succ => extendStep d nres cap maxlen n li succ s) st1).stores) ∧
      arenaExt
        (succs.foldl (fun s succ => extendStep d nres cap maxlen n li succ s) st1).arena
        st.arena ∧
      (∀ x ∈ (succs.foldl (fun s succ => extendStep d nres cap maxlen n li succ s) st1).queue,
        x ∈ st.queue ∨ x ≠ 0) := by
    intro succs
    induction succs with
    | nil => intro st1 _ h1 h2 h3; exact ⟨h1, h2, h3⟩
    | cons s ss ih =>
      intro st1 hss h1 h2 h3
      rw [List.foldl_cons]
      have hli1 : li < st1.arena.length := lt_of_lt_of_le hli h2.1
      have hvis1 : (getL st1.arena li).visited.getD 0 false = false := by
        rw [(h2.2 li hli).2.1]
        exact hvis0
      obtain ⟨e1, e2, e3⟩ := extendStep_inv d nres cap maxlen n li s st1 h1 hn hli1
        (hss s (List.mem_cons_self s ss)) hvis1
      refine ih _ (fun x hx => hss x (List.mem_cons_of_mem s hx)) e1
        (arenaExt_trans e2 h2) ?_
      intro x hx
      rcases e3 x hx with h | h
      · exact h3 x h
      · exact Or.inr h
  obtain ⟨f1, f2, f3⟩ := hfold (List.range d.n) st
    (fun s hs => List.mem_range.mp hs) hInv (arenaExt_refl _) (fun x hx => Or.inl hx)
  set st1 := (List.range d.n).foldl
    (fun s succ => extendStep d nres cap maxlen n li succ s) st with hst1
  have hcore : coreEq { getL st1.arena li with ignore := true } (getL st1.arena li) :=
    ⟨rfl, rfl, rfl, rfl, rfl⟩
  exact ⟨inv_set f1 li _ hcore,
    arenaExt_trans (arenaExt_set_coreEq _ li _ hcore) f2, f3⟩

/-- Invariant preservation by one full vertex pass of the driver. -/
theorem processVertex_inv (d : TSPData) (nres cap : Nat) (maxlen : Int) (n : Nat)
    (st : SolveState) (hInv : DriverInv d nres st.arena st.stores) (hn : 1 ≤ d.n)
    (hsnapvis : ∀ li ∈ st.stores.getD n [],
      (getL st.arena li).visited.getD 0 false = false) :
    DriverInv d nres (processVertex d nres cap maxlen n st).arena
      (processVertex d nres cap maxlen n st).stores ∧
    arenaExt (processVertex d nres cap maxlen n st).arena st.arena ∧
    (∀ x ∈ (processVertex d nres cap maxlen n st).queue, x ∈ st.queue ∨ x ≠ 0) := by
  unfold processVertex
  have hfold : ∀ (snap : List Nat) (st1 : SolveState),
      (∀ li ∈ snap, li < st.arena.length ∧
        (getL st.arena li).visited.getD 0 false = false) →
      DriverInv d nres st1.arena st1.stores →
      arenaExt st1.arena st.arena →
      (∀ x ∈ st1.queue, x ∈ st.queue ∨ x ≠ 0) →
      DriverInv d nres
        ((snap.foldl (fun s li => processLabel d nres cap maxlen n li s) st1).arena)
        ((snap.foldl (fun s li => processLabel d nres cap maxlen n li s) st1).stores) ∧
      arenaExt
        (snap.foldl (fun s li => processLabel d nres cap maxlen n li s) st1).arena
        st.arena ∧
      (∀ x ∈ (snap.foldl (fun s li => processLabel d nres cap maxlen n li s) st1).queue,
        x ∈ st.queue ∨ x ≠ 0) := by
    intro snap
    induction snap with
    | nil => intro st1 _ h1 h2 h3; exact ⟨h1, h2, h3⟩
    | cons li rest ih =>
      intro st1 hmem h1 h2 h3
      rw [List.foldl_cons]
      have hli1 : li < st1.arena.length :=
        lt_of_lt_of_le (hmem li (List.mem_cons_self li rest)).1 h2.1
      have hvis1 : (getL st1.arena li).visited.getD 0 false = false := by
        rw [(h2.2 li (hmem li (List.mem_cons_self li rest)).1).2.1]
        exact (hmem li (List.mem_cons_self li rest)).2
      obtain ⟨e1, e2, e3⟩ := processLabel_inv d nres cap maxlen n li st1 h1 hn hli1 hvis1
      refine ih _ (fun x hx => hmem x (List.mem_cons_of_mem li hx)) e1
        (arenaExt_trans e2 h2) ?_
      intro x hx
      rcases e3 x hx with h | h
      · exact h3 x h
      · exact Or.inr h
  exact hfold (st.stores.getD n []) st
    (fun li hli => ⟨hInv.sbound n li hli, hsnapvis li hli⟩) hInv (arenaExt_refl _)
    (fun x hx => Or.inl hx)

theorem solve_eq_bestcost : ∀ (d : TSPData) (nresources resourcecapacity : Nat)
    (maxlen : Int), solve d nresources resourcecapacity maxlen =
      bestcost (finalState d nresources resourcecapacity maxlen) :=
  fun _ _ _ _ => rfl

theorem initState_store0 (d : TSPData) (nres : Nat) (hn : 1 ≤ d.n) :
    (initState d nres).stores.getD 0 [] = [0] := by
  show ((List.replicate d.n []).set 0 [0]).getD 0 [] = [0]
  rw [getD_set']
  rw [if_pos ⟨rfl, by simpa using hn⟩]

theorem initState_inv (d : TSPData) (nres : Nat) (hn : 1 ≤ d.n) :
    DriverInv d nres (initState d nres).arena (initState d nres).stores := by
  have hstore : ∀ v, (initState d nres).stores.getD v [] = if v = 0 then [0] else [] := by
    intro v
    by_cases hv : v = 0
    · rw [if_pos hv, hv]
      exact initState_store0 d nres hn
    · rw [if_neg hv]
      show ((List.replicate d.n []).set 0 [0]).getD v [] = []
      rw [getD_set', if_neg (fun hc => hv hc.1.symm)]
      exact getD_replicate_any [] d.n v
  have harena : (initState d nres).arena = [Label.empty d nres] := rfl
  have hget0 : getL (initState d nres).arena 0 = Label.empty d nres := rfl
  refine ⟨?_, by rw [harena]; simp, by rw [hget0]; exact coreEq_refl _, ?_, ?_, ?_, ?_, ?_, ?_, ?_⟩
  · intro i hi
    rw [harena] at hi
    simp only [List.length_cons, List.length_nil] at hi
    have hi0 : i = 0 := by omega
    rw [hi0, hget0]
    constructor
    · exact List.length_replicate d.n false
    · exact List.length_replicate nres 0
  · rw [initState_store0 d nres hn]
    simp
  · show ((List.replicate d.n []).set 0 [0]).length = d.n
    rw [List.length_set, List.length_replicate]
  · intro v j hj
    rw [hstore v] at hj
    by_cases hv : v = 0
    · rw [if_pos hv] at hj
      rw [List.mem_singleton] at hj
      rw [hj, harena]
      simp
    · rw [if_neg hv] at hj
      exact absurd hj (List.not_mem_nil j)
  · intro v j hj
    rw [hstore v] at hj
    by_cases hv : v = 0
    · rw [if_pos hv] at hj
      rw [List.mem_singleton] at hj
      rw [hj, hget0, hv]
      rfl
    · rw [if_neg hv] at hj
      exact absurd hj (List.not_mem_nil j)
  · intro i hi
    rw [harena] at hi
    simp only [List.length_cons, List.length_nil] at hi
    have hi0 : i = 0 := by omega
    rw [hi0, hget0]
    intro h
    exact absurd rfl h
  · intro i hi hne
    rw [harena] at hi
    simp only [List.length_cons, List.length_nil] at hi
    omega
  · intro v
    rw [hstore v]
    by_cases hv : v = 0
    · rw [if_pos hv]
      exact List.pairwise_singleton _ _
    · rw [if_neg hv]
      exact List.Pairwise.nil

/-- One iteration of the main loop preserves the loop invariant. -/
theorem iter_inv (d : TSPData) (nres cap : Nat) (maxlen : Int) (st : SolveState)
    (n : Nat) (rest : List Nat) (hq : st.queue = n :: rest)
    (hL : LoopInv d nres st) (hn : 1 ≤ d.n) :
    LoopInv d nres (processVertex d nres cap maxlen n
      { st with queue := rest, in_q := st.in_q.set n false }) := by
  obtain ⟨hInv, hq0⟩ := hL
  set st' : SolveState := { st with queue := rest, in_q := st.in_q.set n false } with hst'
  have hInv' : DriverInv d nres st'.arena st'.stores := hInv
  by_cases hn0 : n = 0
  · subst hn0
    have hinit : st = initState d nres := hq0 (by rw [hq]; exact List.mem_cons_self 0 rest)
    have hrest : rest = [] := by
      have : st.queue = [0] := by rw [hinit]; rfl
      rw [hq] at this
      exact (List.cons.injEq _ _ _ _ ▸ this).2
    have hsnapvis : ∀ li ∈ st'.stores.getD 0 [],
        (getL st'.arena li).visited.getD 0 false = false := by
      intro li hli
      have hstores' : st'.stores = (initState d nres).stores := by rw [hst', hinit]
      have harena' : st'.arena = (initState d nres).arena := by rw [hst', hinit]
      rw [hstores', initState_store0 d nres hn] at hli
      rw [List.mem_singleton] at hli
      rw [hli, harena']
      show (Label.empty d nres).visited.getD 0 false = false
      exact getD_replicate_any false d.n 0
    obtain ⟨p1, _, p3⟩ := processVertex_inv d nres cap maxlen 0 st' hInv' hn hsnapvis
    refine ⟨p1, ?_⟩
    intro h0
    exfalso
    rcases p3 0 h0 with h | h
    · rw [hst'] at h
      simp only [hrest] at h
      exact List.not_mem_nil 0 h
    · exact h rfl
  · have h0notin : 0 ∉ st.queue := by
      intro h0
      have := hq0 h0
      have hqq : st.queue = [0] := by rw [this]; rfl
      rw [hq] at hqq
      exact hn0 (List.cons.injEq _ _ _ _ ▸ hqq).1
    have hsnapvis : ∀ li ∈ st'.stores.getD n [],
        (getL st'.arena li).visited.getD 0 false = false := by
      intro li hli
      have hat : (getL st'.arena li).«at» = n := hInv'.atv n li hli
      refine hInv'.vis0 li (hInv'.sbound n li hli) ?_
      rw [hat]
      exact hn0
    obtain ⟨p1, _, p3⟩ := processVertex_inv d nres cap maxlen n st' hInv' hn hsnapvis
    refine ⟨p1, ?_⟩
    intro h0
    exfalso
    rcases p3 0 h0 with h | h
    · rw [hst'] at h
      simp only [] at h
      exact h0notin (by rw [hq]; exact List.mem_cons_of_mem n h)
    · exact h rfl

/-- The main loop preserves the loop invariant, for any fuel. -/
theorem mainLoop_inv (d : TSPData) (nres cap : Nat) (maxlen : Int) :
    ∀ (fuel : Nat) (st : SolveState), LoopInv d nres st → 1 ≤ d.n →
      LoopInv d nres (mainLoop d nres cap maxlen fuel st) := by
  intro fuel
  induction fuel with
  | zero => intro st hL _; exact hL
  | succ fuel ih =>
    intro st hL hn
    rcases hqe : st.queue with _ | ⟨n, rest⟩
    · simp only [mainLoop, hqe]
      exact hL
    · simp only [mainLoop, hqe]
      exact ih _ (iter_inv d nres cap maxlen st n rest hqe hL hn) hn

theorem initState_loopInv (d : TSPData) (nres : Nat) (hn : 1 ≤ d.n) :
    LoopInv d nres (initState d nres) :=
  ⟨initState_inv d nres hn, fun _ => rfl⟩

/-- The driver invariant holds in the final state. -/
theorem finalState_inv (d : TSPData) (nres cap : Nat) (maxlen : Int) (hn : 1 ≤ d.n) :
    DriverInv d nres (finalState d nres cap maxlen).arena
      (finalState d nres cap maxlen).stores :=
  (mainLoop_inv d nres cap maxlen (fuelBound d) (initState d nres)
    (initState_loopInv d nres hn) hn).1

/-! ## Result extraction lemmas -/

theorem foldlMin_le_init (arena : List Label) (b : Rat) (l : List Nat) :
    l.foldl (fun b j => if (getL arena j).cost < b then (getL arena j).cost else b) b ≤ b := by
  induction l generalizing b with
  | nil => exact le_refl b
  | cons j rest ih =>
    rw [List.foldl_cons]
    by_cases h : (getL arena j).cost < b
    · rw [if_pos h]
      exact le_trans (ih _) (le_of_lt h)
    · rw [if_neg h]
      exact ih b

theorem foldlMin_le_mem (arena : List Label) (l : List Nat) :
    ∀ (b : Rat) (j : Nat), j ∈ l →
    l.foldl (fun b j => if (getL arena j).cost < b then (getL arena j).cost else b) b ≤
      (getL arena j).cost := by
  induction l with
  | nil => intro b j hj; exact absurd hj (List.not_mem_nil j)
  | cons k rest ih =>
    intro b j hj
    rw [List.foldl_cons]
    rcases List.mem_cons.mp hj with h | h
    · subst h
      refine le_trans (foldlMin_le_init arena _ rest) ?_
      by_cases hlt : (getL arena j).cost < b
      · rw [if_pos hlt]
      · rw [if_neg hlt]
        exact le_of_not_lt hlt
    · exact ih _ j h

theorem foldlMin_mem (arena : List Label) (l : List Nat) :
    ∀ (b : Rat),
    l.foldl (fun b j => if (getL arena j).cost < b then (getL arena j).cost else b) b = b ∨
    ∃ j ∈ l,
      l.foldl (fun b j => if (getL arena j).cost < b then (getL arena j).cost else b) b =
        (getL arena j).cost := by
  induction l with
  | nil => intro b; exact Or.inl rfl
  | cons k rest ih =>
    intro b
    rw [List.foldl_cons]
    rcases ih (if (getL arena k).cost < b then (getL arena k).cost else b) with h | ⟨j, hj, he⟩
    · by_cases hlt : (getL arena k).cost < b
      · rw [if_pos hlt] at h ⊢
        exact Or.inr ⟨k, List.mem_cons_self k rest, h⟩
      · rw [if_neg hlt] at h ⊢
        exact Or.inl h
    · exact Or.inr ⟨j, List.mem_cons_of_mem k hj, he⟩

theorem bestcost_le (st : SolveState) (j : Nat) (hj : j ∈ st.stores.getD 0 []) :
    bestcost st ≤ (getL st.arena j).cost := by
  unfold bestcost
  split
  · rename_i heq
    rw [heq] at hj
    exact absurd hj (List.not_mem_nil j)
  · rename_i i rest heq
    rw [heq] at hj
    rcases List.mem_cons.mp hj with h | h
    · subst h
      exact foldlMin_le_init st.arena _ rest
    · exact foldlMin_le_mem st.arena rest _ j h

theorem bestcost_mem (st : SolveState) (hne : st.stores.getD 0 [] ≠ []) :
    ∃ j ∈ st.stores.getD 0 [], bestcost st = (getL st.arena j).cost := by
  unfold bestcost
  split
  · rename_i heq
    exact absurd heq hne
  · rename_i i rest heq
    rw [heq]
    rcases foldlMin_mem st.arena rest ((getL st.arena i).cost) with h | ⟨j, hj, he⟩
    · exact ⟨i, List.mem_cons_self i rest, h⟩
    · exact ⟨j, List.mem_cons_of_mem i hj, he⟩

/-! ## Claims C1, C8, C9 -/

/-- Claim C1: for every instance with at least one vertex (costs are rationals,
hence finite), a label offered to the depot's store — an extension of some
label to vertex 0 — never dominates the synthetic initial label; the initial
label is never removed from the depot store (index 0 stays in it and keeps its
all-false visited set, cost 0 and length 0); consequently `solve` returns a
value at most 0. -/
theorem claim1_baseline_lower_bound (d : TSPData) (nres cap : Nat) (maxlen : Int)
    (hn : 1 ≤ d.n) :
    (∀ (p : Label) (pi : Nat), p.visited.length = d.n →
      (Label.extend d p pi 0).dominates (Label.empty d nres) = false) ∧
    0 ∈ (finalState d nres cap maxlen).stores.getD 0 [] ∧
    coreEq (getL (finalState d nres cap maxlen).arena 0) (Label.empty d nres) ∧
    solve d nres cap maxlen ≤ 0 := by
  have hInv := finalState_inv d nres cap maxlen hn
  refine ⟨?_, hInv.store0, hInv.init0, ?_⟩
  · intro p pi hp
    exact extend_to_depot_not_dominates d nres hn p pi hp (Label.empty d nres)
      (coreEq_refl _)
  · rw [solve_eq_bestcost]
    have hle := bestcost_le (finalState d nres cap maxlen) 0 hInv.store0
    have hc0 : (getL (finalState d nres cap maxlen).arena 0).cost = 0 := hInv.init0.2.2.1
    rw [hc0] at hle
    exact hle

/-- Witness for C1 on the Scenario A instance. -/
theorem claim1_witness :
    1 ≤ scenA.n ∧
    ((∀ (p : Label) (pi : Nat), p.visited.length = scenA.n →
      (Label.extend scenA p pi 0).dominates (Label.empty scenA 1) = false) ∧
    0 ∈ (finalState scenA 1 1 100).stores.getD 0 [] ∧
    coreEq (getL (finalState scenA 1 1 100).arena 0) (Label.empty scenA 1) ∧
    solve scenA 1 1 100 ≤ 0) :=
  ⟨by decide, claim1_baseline_lower_bound scenA 1 1 100 (by decide)⟩

/-- Claim C8 counterexample: the returned value is not the minimum over the
`ignore == false` labels of the depot store.  On Scenario A with
`resourcecapacity = 0` (the spec's Scenario B) the loop ends with the initial
label as the only depot label and its `ignore` flag set (it is marked after
its expansion), so no depot label has `ignore = false`, yet `solve` returns
its cost: the claim's minimum does not exist. -/
theorem claim8_counterexample :
    ¬ ∃ j ∈ (finalState scenA 1 0 100).stores.getD 0 [],
        (getL (finalState scenA 1 0 100).arena j).ignore = false ∧
        solve scenA 1 0 100 = (getL (finalState scenA 1 0 100).arena j).cost ∧
        ∀ k ∈ (finalState scenA 1 0 100).stores.getD 0 [],
          (getL (finalState scenA 1 0 100).arena k).ignore = false →
          (getL (finalState scenA 1 0 100).arena j).cost ≤
            (getL (finalState scenA 1 0 100).arena k).cost := by
  decide

/-- Claim C8 (amended): the value returned by `solve` equals the minimum cost
among all labels in the depot's store at the end of the main loop, with the
`ignore` flags disregarded (lines 163-170 of the source scan every stored
label). -/
theorem claim8_amended_min_over_store (d : TSPData) (nres cap : Nat) (maxlen : Int)
    (hn : 1 ≤ d.n) :
    solve d nres cap maxlen ∈
      ((finalState d nres cap maxlen).stores.getD 0 []).map
        (fun j => (getL (finalState d nres cap maxlen).arena j).cost) ∧
    ∀ c ∈ ((finalState d nres cap maxlen).stores.getD 0 []).map
        (fun j => (getL (finalState d nres cap maxlen).arena j).cost),
      solve d nres cap maxlen ≤ c := by
  have hInv := finalState_inv d nres cap maxlen hn
  constructor
  · rw [solve_eq_bestcost]
    obtain ⟨j, hj, he⟩ := bestcost_mem (finalState d nres cap maxlen)
      (List.ne_nil_of_mem hInv.store0)
    exact List.mem_map.mpr ⟨j, hj, he.symm⟩
  · intro c hc
    obtain ⟨j, hj, he⟩ := List.mem_map.mp hc
    rw [solve_eq_bestcost, ← he]
    exact bestcost_le (finalState d nres cap maxlen) j hj

/-- Witness for the amended C8 on Scenario A. -/
theorem claim8_witness :
    1 ≤ scenA.n ∧
    (solve scenA 1 1 100 ∈
      ((finalState scenA 1 1 100).stores.getD 0 []).map
        (fun j => (getL (finalState scenA 1 1 100).arena j).cost) ∧
    ∀ c ∈ ((finalState scenA 1 1 100).stores.getD 0 []).map
        (fun j => (getL (finalState scenA 1 1 100).arena j).cost),
      solve scenA 1 1 100 ≤ c) :=
  ⟨by decide, claim8_amended_min_over_store scenA 1 1 100 (by decide)⟩

/-- Claim C9 counterexample: labels stored at the depot after closing a round
trip do have their depot visited bit set — `extend` sets `visited[vertex]`
unconditionally, also for `vertex = 0`.  On Scenario A the closing label
`0 → 1 → 0` (arena index 2) has `at = 0` and `visited[0] = true`. -/
theorem claim9_counterexample :
    ¬ ∀ i, i < (finalState scenA 1 1 100).arena.length →
        (getL (finalState scenA 1 1 100).arena i).«at» = 0 →
        (getL (finalState scenA 1 1 100).arena i).visited.getD 0 false = false := by
  decide

/-- Claim C9 (amended): during `solve`, `visited[0]` is false for every label
at a non-depot vertex and for the initial label, and true for every other
label whose current vertex is the depot (exactly the labels created by
extending to the depot, i.e. closing a round trip). -/
theorem claim9_amended_depot_visited (d : TSPData) (nres cap : Nat) (maxlen : Int)
    (hn : 1 ≤ d.n) :
    (∀ i, i < (finalState d nres cap maxlen).arena.length →
      (getL (finalState d nres cap maxlen).arena i).«at» ≠ 0 →
      (getL (finalState d nres cap maxlen).arena i).visited.getD 0 false = false) ∧
    (getL (finalState d nres cap maxlen).arena 0).visited = List.replicate d.n false ∧
    (∀ i, i < (finalState d nres cap maxlen).arena.length → i ≠ 0 →
      (getL (finalState d nres cap maxlen).arena i).«at» = 0 →
      (getL (finalState d nres cap maxlen).arena i).visited.getD 0 false = true) := by
  have hInv := finalState_inv d nres cap maxlen hn
  exact ⟨hInv.vis0, hInv.init0.2.1, hInv.at0⟩

/-- Witness for the amended C9 on Scenario A. -/
theorem claim9_witness :
    1 ≤ scenA.n ∧
    ((∀ i, i < (finalState scenA 1 1 100).arena.length →
      (getL (finalState scenA 1 1 100).arena i).«at» ≠ 0 →
      (getL (finalState scenA 1 1 100).arena i).visited.getD 0 false = false) ∧
    (getL (finalState scenA 1 1 100).arena 0).visited = List.replicate scenA.n false ∧
    (∀ i, i < (finalState scenA 1 1 100).arena.length → i ≠ 0 →
      (getL (finalState scenA 1 1 100).arena i).«at» = 0 →
      (getL (finalState scenA 1 1 100).arena i).visited.getD 0 false = true)) :=
  ⟨by decide, claim9_amended_depot_visited scenA 1 1 100 (by decide)⟩

/-! ## Termination measure -/

theorem wt_le_of_ignOnly (n : Nat) {x y : Label} (h : ignOnly x y) :
    wt n x ≤ wt n y := by
  rcases h with h | h <;> subst h
  · exact le_refl _
  · unfold wt
    simp

theorem phi_pointwise_le (n : Nat) :
    ∀ (a' a : List Label), a'.length = a.length →
      (∀ j, j < a.length → wt n (getL a' j) ≤ wt n (getL a j)) →
      Phi n a' ≤ Phi n a := by
  intro a'
  induction a' with
  | nil =>
    intro a hlen _
    unfold Phi
    simp
  | cons y ys ih =>
    intro a hlen hpt
    cases a with
    | nil => simp at hlen
    | cons x xs =>
      unfold Phi
      simp only [List.map_cons, List.sum_cons]
      have h0 : wt n y ≤ wt n x := hpt 0 (by simp)
      have htail : Phi n ys ≤ Phi n xs := by
        refine ih xs (by simpa using hlen) ?_
        intro j hj
        exact hpt (j + 1) (by simpa using hj)
      exact Nat.add_le_add h0 htail

theorem phi_ignOnlyArena_le (n : Nat) {a' a : List Label} (h : ignOnlyArena a' a) :
    Phi n a' ≤ Phi n a :=
  phi_pointwise_le n a' a h.1 (fun j _ => wt_le_of_ignOnly n (h.2 j))

theorem phi_append (n : Nat) (a : List Label) (x : Label) :
    Phi n (a ++ [x]) = Phi n a + wt n x := by
  unfold Phi
  rw [List.map_append, List.sum_append]
  simp

theorem phi_set (n : Nat) :
    ∀ (a : List Label) (li : Nat) (x : Label), li < a.length →
      Phi n (a.set li x) + wt n (getL a li) = Phi n a + wt n x := by
  intro a
  induction a with
  | nil => intro li x h; simp at h
  | cons y ys ih =>
    intro li x h
    cases li with
    | zero =>
      unfold Phi
      simp only [List.set_cons_zero, List.map_cons, List.sum_cons]
      have : getL (y :: ys) 0 = y := rfl
      rw [this]
      omega
    | succ li =>
      unfold Phi
      simp only [List.set_cons_succ, List.map_cons, List.sum_cons]
      have hg : getL (y :: ys) (li + 1) = getL ys li := rfl
      rw [hg]
      have := ih li x (by simpa using h)
      unfold Phi at this
      omega

/-- Replacing an entry by one of equal weight keeps the total weight. -/
theorem phi_set_wt_eq (n : Nat) (a : List Label) (li : Nat) (x : Label)
    (hli : li < a.length) (hwt : wt n x = wt n (getL a li)) :
    Phi n (a.set li x) = Phi n a := by
  have := phi_set n a li x hli
  rw [hwt] at this
  omega

/-- The arena returned by the `updatedominance` scan differs from the input
arena only in `ignore` flags (no hypotheses needed). -/
theorem ud_ignOnly :
    ∀ (fuel : Nat) (arena : List Label) (newIdx : Nat) (store : List Nat) (i : Nat),
      ignOnlyArena (updatedominanceAux fuel arena newIdx store i).2.2 arena := by
  intro fuel
  induction fuel with
  | zero => intro arena newIdx store i; exact ignOnlyArena_refl arena
  | succ fuel ih =>
    intro arena newIdx store i
    by_cases hi : i < store.length
    · by_cases hd1 : (getL arena (store.getD i 0)).dominates (getL arena newIdx) = true
      · rw [ud_step_reject fuel arena newIdx store i hi hd1]
        exact ignOnlyArena_refl arena
      · by_cases hd2 : (getL arena newIdx).dominates (getL arena (store.getD i 0)) = true
        · rw [ud_step_remove fuel arena newIdx store i hi hd1 hd2]
          exact ignOnlyArena_trans (ih _ _ _ _)
            (marksuccessors_ignOnlyArena arena (store.getD i 0))
        · rw [ud_step_keep fuel arena newIdx store i hi hd1 hd2]
          exact ih _ _ _ _
    · rw [ud_step_exit fuel arena newIdx store i hi]
      exact ignOnlyArena_refl arena

theorem count_set_true (l : List Bool) :
    ∀ (i : Nat), i < l.length → l.getD i false = false →
      (l.set i true).count true = l.count true + 1 := by
  induction l with
  | nil => intro i h; simp at h
  | cons b bs ih =>
    intro i hi hf
    cases i with
    | zero =>
      have hb : b = false := hf
      subst hb
      simp [List.count_cons]
    | succ i =>
      have hf' : bs.getD i false = false := hf
      have hi' : i < bs.length := by simpa using hi
      simp only [List.set_cons_succ, List.count_cons]
      rw [ih i hi' hf']
      omega

theorem updatedominance_ignOnly (arena : List Label) (store : List Nat) (newIdx : Nat) :
    ignOnlyArena (Label.updatedominance arena store newIdx).2.2 arena :=
  ud_ignOnly (store.length + 1) arena newIdx store 0

theorem phiex_wt (n : Nat) (a : List Label) (li : Nat) (hli : li < a.length) :
    Phiex n li a + wt n (getL a li) = Phi n a := by
  unfold Phiex
  have := phi_set n a li { getL a li with ignore := true } hli
  have hw : wt n { getL a li with ignore := true } = 0 := by
    unfold wt
    simp
  omega

theorem phiex_append (n : Nat) (a : List Label) (li : Nat) (c : Label)
    (hli : li < a.length) :
    Phiex n li (a ++ [c]) = Phiex n li a + wt n c := by
  unfold Phiex
  rw [getL_append_left a [c] li hli]
  rw [List.set_append, if_pos hli, phi_append]

theorem phiex_ignOnly_le (n : Nat) {a2 a1 : List Label} (h : ignOnlyArena a2 a1)
    (li : Nat) :
    Phiex n li a2 ≤ Phiex n li a1 := by
  unfold Phiex
  refine phi_ignOnlyArena_le n ⟨?_, ?_⟩
  · rw [List.length_set, List.length_set, h.1]
  · intro j
    rw [getL_set, getL_set]
    by_cases hc : li = j ∧ j < a1.length
    · rw [if_pos ⟨hc.1, by rw [h.1]; exact hc.2⟩, if_pos hc]
      rcases h.2 li with he | he <;> rw [he]
      · exact ignOnly_refl _
      · exact Or.inl rfl
    · have hc2 : ¬ (li = j ∧ j < a2.length) := by
        rw [h.1]; exact hc
      rw [if_neg hc2, if_neg hc]
      exact h.2 j

theorem phiex_set_self (n : Nat) (a : List Label) (li : Nat) (x : Label)
    (hli : li < a.length) :
    Phiex n li (a.set li x) = Phiex n li a := by
  unfold Phiex
  have hg : getL (a.set li x) li = x := by
    rw [getL_set, if_pos ⟨rfl, hli⟩]
  rw [hg, List.set_set]
  have h1 := phi_set n a li { x with ignore := true } hli
  have h2 := phi_set n a li { getL a li with ignore := true } hli
  have hw1 : wt n { x with ignore := true } = 0 := by unfold wt; simp
  have hw2 : wt n { getL a li with ignore := true } = 0 := by unfold wt; simp
  simp only [] at h1 h2 hw1 hw2 ⊢
  omega

/-- Weight effect of one candidate-successor step: either the step is a no-op,
or the target was unvisited and the step adds at most the weight of one freshly
extended child (everything else in it only marks labels dead).  The queue
grows by at most one entry. -/
theorem extendStep_phiex (d : TSPData) (nres cap : Nat) (maxlen : Int) (n li succ : Nat)
    (st : SolveState) (hli : li < st.arena.length) :
    (extendStep d nres cap maxlen n li succ st = st ∨
      ((getL st.arena li).visited.getD succ false = false ∧
        Phiex d.n li (extendStep d nres cap maxlen n li succ st).arena ≤
          Phiex d.n li st.arena +
            wt d.n (Label.extend d (getL st.arena li) li succ))) ∧
    (extendStep d nres cap maxlen n li succ st).queue.length ≤ st.queue.length + 1 := by
  by_cases h1 : ((getL st.arena li).visited.getD succ false || (succ == n)) = true
  · rw [extendStep_skip d nres cap maxlen n li succ st h1]
    exact ⟨Or.inl rfl, by omega⟩
  have h1' := eq_false_of_ne_true h1
  have hgd : (getL st.arena li).visited.getD succ false = false :=
    (Bool.or_eq_false_iff.mp h1').1
  by_cases h2 : lengthOk d maxlen n succ (getL st.arena li) = true
  swap
  · rw [extendStep_skip2 d nres cap maxlen n li succ st h1' (eq_false_of_ne_true h2)]
    exact ⟨Or.inl rfl, by omega⟩
  by_cases h3 : rfeas nres cap succ (getL st.arena li) = true
  swap
  · rw [extendStep_skip3 d nres cap maxlen n li succ st h1' h2 (eq_false_of_ne_true h3)]
    exact ⟨Or.inl rfl, by omega⟩
  rw [extendStep_main d nres cap maxlen n li succ st h1' h2 h3]
  simp only []
  set nl := Label.extend d (getL st.arena li) li succ with hnl
  set arena1 := st.arena ++ [nl] with harena1
  set r := Label.updatedominance arena1 (st.stores.getD succ []) st.arena.length with hr
  have hli1 : li < arena1.length := by
    rw [harena1]
    simp only [List.length_append, List.length_cons, List.length_nil]
    omega
  have hp1 : Phiex d.n li arena1 = Phiex d.n li st.arena + wt d.n nl :=
    phiex_append d.n st.arena li nl hli
  have hja : ignOnlyArena r.2.2 arena1 := updatedominance_ignOnly arena1 _ _
  have hp2 : Phiex d.n li r.2.2 ≤ Phiex d.n li arena1 := phiex_ignOnly_le d.n hja li
  have hli2 : li < r.2.2.length := by
    rw [hja.1]
    exact hli1
  have hp4 : Phiex d.n li r.2.2 ≤ Phiex d.n li st.arena + wt d.n nl := by omega
  have hp3 : Phiex d.n li
      (r.2.2.set li { getL r.2.2 li with
        successors := (getL r.2.2 li).successors ++ [st.arena.length] }) ≤
      Phiex d.n li st.arena + wt d.n nl := by
    rw [phiex_set_self d.n r.2.2 li _ hli2]
    exact hp4
  have hq1 : (st.queue ++ [succ]).length ≤ st.queue.length + 1 := by simp
  by_cases hadd : r.1 = true
  · rw [if_pos hadd]
    by_cases henq : (!(st.in_q.getD succ false) && succ != 0) = true
    · rw [if_pos henq]
      exact ⟨Or.inr ⟨hgd, hp3⟩, hq1⟩
    · rw [if_neg henq]
      exact ⟨Or.inr ⟨hgd, hp3⟩, Nat.le_succ _⟩
  · rw [if_neg hadd]
    exact ⟨Or.inr ⟨hgd, hp4⟩, Nat.le_succ _⟩

theorem extendStep_ext (d : TSPData) (nres cap : Nat) (maxlen : Int) (n li succ : Nat)
    (st : SolveState) :
    arenaExt (extendStep d nres cap maxlen n li succ st).arena st.arena := by
  by_cases h1 : ((getL st.arena li).visited.getD succ false || (succ == n)) = true
  · rw [extendStep_skip d nres cap maxlen n li succ st h1]
    exact arenaExt_refl _
  have h1' := eq_false_of_ne_true h1
  by_cases h2 : lengthOk d maxlen n succ (getL st.arena li) = true
  swap
  · rw [extendStep_skip2 d nres cap maxlen n li succ st h1' (eq_false_of_ne_true h2)]
    exact arenaExt_refl _
  by_cases h3 : rfeas nres cap succ (getL st.arena li) = true
  swap
  · rw [extendStep_skip3 d nres cap maxlen n li succ st h1' h2 (eq_false_of_ne_true h3)]
    exact arenaExt_refl _
  rw [extendStep_main d nres cap maxlen n li succ st h1' h2 h3]
  simp only []
  set arena1 := st.arena ++ [Label.extend d (getL st.arena li) li succ] with harena1
  set r := Label.updatedominance arena1 (st.stores.getD succ []) st.arena.length with hr
  have hext2 : arenaExt r.2.2 st.arena :=
    arenaExt_trans (arenaExt_of_ignOnlyArena (updatedominance_ignOnly arena1 _ _))
      (arenaExt_append st.arena _)
  have hext3 : arenaExt
      (r.2.2.set li { getL r.2.2 li with
        successors := (getL r.2.2 li).successors ++ [st.arena.length] }) st.arena :=
    arenaExt_trans (arenaExt_set_coreEq _ li _ ⟨rfl, rfl, rfl, rfl, rfl⟩) hext2
  by_cases hadd : r.1 = true
  · rw [if_pos hadd]
    by_cases henq : (!(st.in_q.getD succ false) && succ != 0) = true
    · rw [if_pos henq]
      exact hext3
    · rw [if_neg henq]
      exact hext3
  · rw [if_neg hadd]
    exact hext2

/-- Processing one live label strictly decreases the arena weight: the label's
own weight is removed at the end (line 160) and each of the at most `d.n`
accepted children weighs a factor `d.n + 1` less.  The queue grows by at most
`d.n` entries. -/
theorem processLabel_phi (d : TSPData) (nres cap : Nat) (maxlen : Int) (n li : Nat)
    (st : SolveState) (hInv : DriverInv d nres st.arena st.stores)
    (hli : li < st.arena.length) (hig : (getL st.arena li).ignore = false) :
    Phi d.n (processLabel d nres cap maxlen n li st).arena + 1 ≤ Phi d.n st.arena ∧
    (processLabel d nres cap maxlen n li st).queue.length ≤ st.queue.length + d.n := by
  rw [processLabel_active d nres cap maxlen n li st hig]
  simp only []
  have hvlen : (getL st.arena li).visited.length = d.n := (hInv.lens li hli).1
  have hkle : (getL st.arena li).visited.count true ≤ d.n := by
    rw [← hvlen]
    exact List.count_le_length true _
  have hfold : ∀ (succs : List Nat) (st1 : SolveState),
      (∀ s ∈ succs, s < d.n) → arenaExt st1.arena st.arena →
      ((succs.foldl (fun s succ => extendStep d nres cap maxlen n li succ s) st1) = st1 ∨
        ((getL st.arena li).visited.count true < d.n ∧
          Phiex d.n li
            (succs.foldl (fun s succ => extendStep d nres cap maxlen n li succ s) st1).arena ≤
            Phiex d.n li st1.arena +
              succs.length *
                (d.n + 1) ^ (d.n - (getL st.arena li).visited.count true - 1))) ∧
      (succs.foldl (fun s succ => extendStep d nres cap maxlen n li succ s) st1).queue.length ≤
        st1.queue.length + succs.length ∧
      arenaExt
        (succs.foldl (fun s succ => extendStep d nres cap maxlen n li succ s) st1).arena
        st.arena := by
    intro succs
    induction succs with
    | nil =>
      intro st1 _ hext
      exact ⟨Or.inl rfl, by rw [List.foldl_nil]; omega, hext⟩
    | cons s ss ih =>
      intro st1 hss hext
      rw [List.foldl_cons]
      have hli1 : li < st1.arena.length := lt_of_lt_of_le hli hext.1
      obtain ⟨hstep, hstepq⟩ := extendStep_phiex d nres cap maxlen n li s st1 hli1
      have hext2 : arenaExt (extendStep d nres cap maxlen n li s st1).arena st.arena :=
        arenaExt_trans (extendStep_ext d nres cap maxlen n li s st1) hext
      obtain ⟨ih1, ih2, ih3⟩ := ih (extendStep d nres cap maxlen n li s st1)
        (fun u hu => hss u (List.mem_cons_of_mem s hu)) hext2
      have hmul : (ss.length + 1) *
          (d.n + 1) ^ (d.n - (getL st.arena li).visited.count true - 1) =
          ss.length * (d.n + 1) ^ (d.n - (getL st.arena li).visited.count true - 1) +
          (d.n + 1) ^ (d.n - (getL st.arena li).visited.count true - 1) := by
        rw [Nat.succ_mul]
      refine ⟨?_, by simp only [List.length_cons]; omega, ih3⟩
      rcases hstep with heq | ⟨hgd, hbnd⟩
      · rw [heq] at ih1 ⊢
        rcases ih1 with heq2 | ⟨hklt, hb⟩
        · exact Or.inl heq2
        · refine Or.inr ⟨hklt, ?_⟩
          simp only [List.length_cons]
          omega
      · have hvis1 : (getL st1.arena li).visited = (getL st.arena li).visited :=
          (hext.2 li hli).2.1
        have hgd' : (getL st.arena li).visited.getD s false = false := by
          rw [← hvis1]
          exact hgd
        have hsd : s < d.n := hss s (List.mem_cons_self s ss)
        have hklt : (getL st.arena li).visited.count true < d.n := by
          by_contra hge
          have hkeq : (getL st.arena li).visited.count true =
              (getL st.arena li).visited.length := by omega
          have hall := List.count_eq_length.mp hkeq
          have hsb : s < (getL st.arena li).visited.length := by
            rw [hvlen]
            exact hsd
          have htrue : true = (getL st.arena li).visited[s] :=
            hall _ (List.getElem_mem hsb)
          have hgd2 : (getL st.arena li).visited.getD s false = true := by
            rw [List.getD_eq_getElem?_getD, List.getElem?_eq_getElem hsb, ← htrue]
            rfl
          rw [hgd'] at hgd2
          exact Bool.false_ne_true hgd2
        have hwt : wt d.n (Label.extend d (getL st1.arena li) li s) =
            (d.n + 1) ^ (d.n - (getL st.arena li).visited.count true - 1) := by
          unfold wt
          have hign : (Label.extend d (getL st1.arena li) li s).ignore = false := rfl
          rw [hign]
          simp only [Bool.false_eq_true, if_false]
          have hvv : (Label.extend d (getL st1.arena li) li s).visited =
              (getL st.arena li).visited.set s true := by
            show (getL st1.arena li).visited.set s true =
              (getL st.arena li).visited.set s true
            rw [hvis1]
          rw [hvv, count_set_true _ s (by rw [hvlen]; exact hsd) hgd']
          have hesub : d.n - (List.count true (getL st.arena li).visited + 1) =
              d.n - List.count true (getL st.arena li).visited - 1 := by omega
          rw [hesub]
        rw [hwt] at hbnd
        rcases ih1 with heq2 | ⟨_, hb⟩
        · rw [heq2]
          refine Or.inr ⟨hklt, ?_⟩
          simp only [List.length_cons]
          omega
        · refine Or.inr ⟨hklt, ?_⟩
          simp only [List.length_cons]
          omega
  obtain ⟨hf1, hf2, hf3⟩ := hfold (List.range d.n) st
    (fun s hs => List.mem_range.mp hs) (arenaExt_refl _)
  have hrange : (List.range d.n).length = d.n := List.length_range d.n
  constructor
  · -- the final arena is the fold result with the parent's entry killed
    have hexA : Phiex d.n li st.arena + wt d.n (getL st.arena li) = Phi d.n st.arena :=
      phiex_wt d.n st.arena li hli
    have hwtp : wt d.n (getL st.arena li) =
        (d.n + 1) ^ (d.n - (getL st.arena li).visited.count true) := by
      unfold wt
      rw [hig]
      simp
    have hge1 : 1 ≤ wt d.n (getL st.arena li) := by
      rw [hwtp]
      exact Nat.one_le_pow _ _ (by omega)
    rcases hf1 with heq | ⟨hklt, hb⟩
    · rw [heq]
      have hPfinal : Phi d.n (st.arena.set li { getL st.arena li with ignore := true }) =
          Phiex d.n li st.arena := rfl
      show Phi d.n (st.arena.set li { getL st.arena li with ignore := true }) + 1 ≤
        Phi d.n st.arena
      omega
    · set st1 := (List.range d.n).foldl
        (fun s succ => extendStep d nres cap maxlen n li succ s) st with hst1
      have hPfinal : Phi d.n (st1.arena.set li { getL st1.arena li with ignore := true }) =
          Phiex d.n li st1.arena := rfl
      show Phi d.n (st1.arena.set li { getL st1.arena li with ignore := true }) + 1 ≤
        Phi d.n st.arena
      rw [hPfinal]
      rw [hrange] at hb
      have hpow : (d.n + 1) ^ (d.n - (getL st.arena li).visited.count true) =
          (d.n + 1) ^ (d.n - (getL st.arena li).visited.count true - 1) * (d.n + 1) := by
        rw [← Nat.pow_succ]
        congr 1
        omega
      have hWge : 1 ≤ (d.n + 1) ^ (d.n - (getL st.arena li).visited.count true - 1) :=
        Nat.one_le_pow _ _ (by omega)
      have hexp : (d.n + 1) ^ (d.n - (getL st.arena li).visited.count true - 1) * (d.n + 1) =
          (d.n + 1) ^ (d.n - (getL st.arena li).visited.count true - 1) * d.n +
          (d.n + 1) ^ (d.n - (getL st.arena li).visited.count true - 1) := by
        rw [Nat.mul_succ]
      have hcomm : d.n * (d.n + 1) ^ (d.n - (getL st.arena li).visited.count true - 1) =
          (d.n + 1) ^ (d.n - (getL st.arena li).visited.count true - 1) * d.n :=
        Nat.mul_comm _ _
      omega
  · show ((List.range d.n).foldl
        (fun s succ => extendStep d nres cap maxlen n li succ s) st).queue.length ≤
      st.queue.length + d.n
    rw [hrange] at hf2
    exact hf2

/-- A full vertex pass never increases the driver measure. -/
theorem processVertex_mes (d : TSPData) (nres cap : Nat) (maxlen : Int) (n : Nat)
    (st : SolveState) (hInv : DriverInv d nres st.arena st.stores) (hn : 1 ≤ d.n)
    (hsnapvis : ∀ li ∈ st.stores.getD n [],
      (getL st.arena li).visited.getD 0 false = false) :
    Mes d (processVertex d nres cap maxlen n st) ≤ Mes d st := by
  unfold processVertex
  have hfold : ∀ (snap : List Nat) (st1 : SolveState),
      (∀ li ∈ snap, li < st.arena.length ∧
        (getL st.arena li).visited.getD 0 false = false) →
      DriverInv d nres st1.arena st1.stores →
      arenaExt st1.arena st.arena →
      Mes d st1 ≤ Mes d st →
      Mes d ((snap.foldl (fun s li => processLabel d nres cap maxlen n li s) st1)) ≤
        Mes d st := by
    intro snap
    induction snap with
    | nil => intro st1 _ _ _ h4; exact h4
    | cons li rest ih =>
      intro st1 hmem h1 h2 h4
      rw [List.foldl_cons]
      have hli1 : li < st1.arena.length :=
        lt_of_lt_of_le (hmem li (List.mem_cons_self li rest)).1 h2.1
      have hvis1 : (getL st1.arena li).visited.getD 0 false = false := by
        rw [(h2.2 li (hmem li (List.mem_cons_self li rest)).1).2.1]
        exact (hmem li (List.mem_cons_self li rest)).2
      obtain ⟨e1, e2, _⟩ := processLabel_inv d nres cap maxlen n li st1 h1 hn hli1 hvis1
      have hmes2 : Mes d (processLabel d nres cap maxlen n li st1) ≤ Mes d st1 := by
        by_cases hig : (getL st1.arena li).ignore = true
        · rw [processLabel_ignored d nres cap maxlen n li st1 hig]
        · obtain ⟨hp, hq⟩ := processLabel_phi d nres cap maxlen n li st1 h1 hli1
            (eq_false_of_ne_true hig)
          unfold Mes
          have hmul : (Phi d.n (processLabel d nres cap maxlen n li st1).arena + 1) *
              (d.n + 1) ≤ Phi d.n st1.arena * (d.n + 1) :=
            Nat.mul_le_mul_right _ hp
          have hexp : (Phi d.n (processLabel d nres cap maxlen n li st1).arena + 1) *
              (d.n + 1) =
              Phi d.n (processLabel d nres cap maxlen n li st1).arena * (d.n + 1) +
                (d.n + 1) := by
            rw [Nat.succ_mul]
          omega
      exact ih _ (fun x hx => hmem x (List.mem_cons_of_mem li hx)) e1
        (arenaExt_trans e2 h2) (le_trans hmes2 h4)
  exact hfold (st.stores.getD n []) st
    (fun li hli => ⟨hInv.sbound n li hli, hsnapvis li hli⟩) hInv (arenaExt_refl _)
    (le_refl _)

/-- The labels of the dequeued vertex's store have not closed a route: for a
non-depot vertex by the invariant, and for the depot because it is only
dequeued in the initial state. -/
theorem iter_snapvis (d : TSPData) (nres : Nat) (st : SolveState) (n : Nat)
    (rest : List Nat) (hq : st.queue = n :: rest) (hL : LoopInv d nres st)
    (hn : 1 ≤ d.n) :
    ∀ li ∈ st.stores.getD n [], (getL st.arena li).visited.getD 0 false = false := by
  obtain ⟨hInv, hq0⟩ := hL
  by_cases hn0 : n = 0
  · subst hn0
    have hinit : st = initState d nres := hq0 (by rw [hq]; exact List.mem_cons_self 0 rest)
    intro li hli
    rw [hinit] at hli ⊢
    rw [initState_store0 d nres hn] at hli
    rw [List.mem_singleton] at hli
    rw [hli]
    show (Label.empty d nres).visited.getD 0 false = false
    exact getD_replicate_any false d.n 0
  · intro li hli
    have hat : (getL st.arena li).«at» = n := hInv.atv n li hli
    refine hInv.vis0 li (hInv.sbound n li hli) ?_
    rw [hat]
    exact hn0

/-- Each loop iteration strictly decreases the driver measure. -/
theorem iter_mes (d : TSPData) (nres cap : Nat) (maxlen : Int) (st : SolveState)
    (n : Nat) (rest : List Nat) (hq : st.queue = n :: rest)
    (hL : LoopInv d nres st) (hn : 1 ≤ d.n) :
    Mes d (processVertex d nres cap maxlen n
      { st with queue := rest, in_q := st.in_q.set n false }) < Mes d st := by
  set st' : SolveState := { st with queue := rest, in_q := st.in_q.set n false } with hst'
  have hInv' : DriverInv d nres st'.arena st'.stores := hL.1
  have hsnapvis : ∀ li ∈ st'.stores.getD n [],
      (getL st'.arena li).visited.getD 0 false = false :=
    iter_snapvis d nres st n rest hq hL hn
  have hle := processVertex_mes d nres cap maxlen n st' hInv' hn hsnapvis
  have hmes' : Mes d st' + 1 = Mes d st := by
    unfold Mes
    rw [hst']
    simp only []
    rw [hq]
    simp only [List.length_cons]
    omega
  omega

/-- With fuel exceeding the measure, the main loop drains its queue. -/
theorem mainLoop_drains (d : TSPData) (nres cap : Nat) (maxlen : Int) (hn : 1 ≤ d.n) :
    ∀ (fuel : Nat) (st : SolveState), LoopInv d nres st → Mes d st < fuel →
      (mainLoop d nres cap maxlen fuel st).queue = [] := by
  intro fuel
  induction fuel with
  | zero => intro st _ hlt; omega
  | succ fuel ih =>
    intro st hL hlt
    rcases hqe : st.queue with _ | ⟨n, rest⟩
    · simp only [mainLoop, hqe]
    · simp only [mainLoop, hqe]
      refine ih _ (iter_inv d nres cap maxlen st n rest hqe hL hn) ?_
      have := iter_mes d nres cap maxlen st n rest hqe hL hn
      omega

theorem mes_init (d : TSPData) (nres : Nat) :
    Mes d (initState d nres) = (d.n + 1) ^ (d.n + 1) + 1 := by
  unfold Mes Phi
  have harena : (initState d nres).arena = [Label.empty d nres] := rfl
  rw [harena]
  simp only [List.map_cons, List.map_nil, List.sum_cons, List.sum_nil]
  have hwt : wt d.n (Label.empty d nres) = (d.n + 1) ^ d.n := by
    unfold wt Label.empty
    simp only []
    rw [if_neg (by simp)]
    have hcnt : List.count true (List.replicate d.n false) = 0 := by
      rw [List.count_replicate]
      simp
    rw [hcnt, Nat.sub_zero]
  rw [hwt]
  have hq : (initState d nres).queue = [0] := rfl
  rw [hq]
  simp only [List.length_cons, List.length_nil, Nat.add_zero, Nat.zero_add]
  rw [← Nat.pow_succ]

/-- Once the queue has drained, extra fuel changes nothing. -/
theorem mainLoop_stable_of_empty (d : TSPData) (nres cap : Nat) (maxlen : Int) :
    ∀ (fuel : Nat) (st : SolveState), st.queue = [] →
      mainLoop d nres cap maxlen fuel st = st := by
  intro fuel
  cases fuel with
  | zero => intro st _; rfl
  | succ fuel => intro st hq; simp only [mainLoop, hq]

theorem mainLoop_add_fuel (d : TSPData) (nres cap : Nat) (maxlen : Int) :
    ∀ (fuel extra : Nat) (st : SolveState),
      (mainLoop d nres cap maxlen fuel st).queue = [] →
      mainLoop d nres cap maxlen (fuel + extra) st = mainLoop d nres cap maxlen fuel st := by
  intro fuel
  induction fuel with
  | zero =>
    intro extra st hq
    rw [Nat.zero_add]
    exact mainLoop_stable_of_empty d nres cap maxlen extra st hq
  | succ fuel ih =>
    intro extra st hq
    rcases hqe : st.queue with _ | ⟨n, rest⟩
    · rw [mainLoop_stable_of_empty d nres cap maxlen (fuel + 1 + extra) st hqe,
        mainLoop_stable_of_empty d nres cap maxlen (fuel + 1) st hqe]
    · have hshift : fuel + 1 + extra = (fuel + extra) + 1 := by omega
      rw [hshift]
      simp only [mainLoop, hqe] at hq ⊢
      exact ih extra _ hq

/-- Claim C10: the driver terminates on every instance with `n >= 1` (the
oracle's values are total and finite in the embedding): the worker-queue loop
drains its queue within `fuelBound d` iterations — every label is expanded at
most once and only finitely many labels are ever created, which the strictly
decreasing measure `Mes` certifies — and running the loop any longer leaves
the final state unchanged, so `solve` returns a value. -/
theorem claim10_termination (d : TSPData) (nres cap : Nat) (maxlen : Int)
    (hn : 1 ≤ d.n) :
    (finalState d nres cap maxlen).queue = [] ∧
    (∀ extra : Nat, mainLoop d nres cap maxlen (fuelBound d + extra) (initState d nres) =
      finalState d nres cap maxlen) := by
  have hdrain : (mainLoop d nres cap maxlen (fuelBound d) (initState d nres)).queue = [] := by
    refine mainLoop_drains d nres cap maxlen hn (fuelBound d) (initState d nres)
      (initState_loopInv d nres hn) ?_
    rw [mes_init]
    unfold fuelBound
    omega
  exact ⟨hdrain, fun extra => mainLoop_add_fuel d nres cap maxlen (fuelBound d) extra
    (initState d nres) hdrain⟩

/-- Witness for C10 on Scenario A. -/
theorem claim10_witness :
    1 ≤ scenA.n ∧
    ((finalState scenA 1 1 100).queue = [] ∧
    (∀ extra : Nat, mainLoop scenA 1 1 100 (fuelBound scenA + extra) (initState scenA 1) =
      finalState scenA 1 1 100)) :=
  ⟨by decide, claim10_termination scenA 1 1 100 (by decide)⟩
